import Mathlib

/-!
Verification development for the gc6 labyrinth server and solver.

The Go sources are embedded shallowly: machine integers become `Int`
(no overflow is reachable at the scales involved), the pseudo-random
source becomes an explicit oracle (a `List Nat` of draw values that the
embedded functions consume, plus an explicit visitation order where the
code calls rand.Perm), Go maps become association lists or option-valued
functions, and in-place mutation becomes state passing.  Functions of the
mazelib support package (a package of this repository that is not part of
the provided sources) are modelled from the spec where needed; each such
definition carries a doc comment saying so.
-/

/-- Directions. Modelled from the spec: mazelib exposes the four direction
constants N, S, E, W used throughout; "reverse direction" swaps N with S and
E with W. -/
inductive Dir : Type
  | N | S | E | W
deriving DecidableEq, Repr

/-- The reverse of a direction (common.ReverseDirection and the client's
reverseDirection function). -/
def Dir.rev : Dir → Dir
  | .N => .S
  | .S => .N
  | .E => .W
  | .W => .E

/-- Coordinate: integer pair, as in mazelib.Coordinate / common.Coordinate. -/
@[ext]
structure Coordinate : Type where
  x : Int
  y : Int
deriving DecidableEq, Repr

/-- common.Coordinate.Up: the top neighbor. -/
def Coordinate.up (c : Coordinate) : Coordinate := ⟨c.x, c.y - 1⟩

/-- common.Coordinate.Down: the bottom neighbor. -/
def Coordinate.down (c : Coordinate) : Coordinate := ⟨c.x, c.y + 1⟩

/-- common.Coordinate.Left: the left neighbor. -/
def Coordinate.left (c : Coordinate) : Coordinate := ⟨c.x - 1, c.y⟩

/-- common.Coordinate.Right: the right neighbor. -/
def Coordinate.right (c : Coordinate) : Coordinate := ⟨c.x + 1, c.y⟩

/-- common.Coordinate.Neighbor: the neighbor at direction dir. -/
def Coordinate.neighbor (c : Coordinate) : Dir → Coordinate
  | .N => c.up
  | .S => c.down
  | .W => c.left
  | .E => c.right

/-- common.Coordinate.Neighbors: all four neighbors, in source order
Up, Down, Left, Right. -/
def Coordinate.neighborsList (c : Coordinate) : List Coordinate :=
  [c.up, c.down, c.left, c.right]

/-- common.Coordinate.GetDir: given another coordinate (expected to be a
neighbor), the direction toward it. -/
def Coordinate.getDir (c cc : Coordinate) : Dir :=
  if c.x = cc.x then (if c.y < cc.y then .S else .N)
  else if c.x < cc.x then .E
  else .W

/-- Two coordinates are grid-adjacent when the second is one of the first's
four neighbors. -/
def Coordinate.adjacent (c cc : Coordinate) : Prop := cc ∈ c.neighborsList

instance (c cc : Coordinate) : Decidable (c.adjacent cc) := by
  unfold Coordinate.adjacent; infer_instance

/-- Survey: one room's four wall booleans, as in mazelib.Survey
(fields Top, Bottom, Left, Right). Modelled from the spec: mazelib's
Survey struct itself is not among the provided files. -/
structure Survey : Type where
  top : Bool
  bottom : Bool
  left : Bool
  right : Bool
deriving DecidableEq, Repr

/-- The all-open survey, the zero value of mazelib.Survey. -/
def emptySurvey : Survey := ⟨false, false, false, false⟩

/-- The wall flag of a survey in a given direction (the client's
Survey.HasWall; the server reads the same fields directly, one per Move
function). -/
def Survey.hasWall (s : Survey) : Dir → Bool
  | .N => s.top
  | .S => s.bottom
  | .W => s.left
  | .E => s.right

/-- Replace the wall flag of a survey in one direction. -/
def Survey.setWall (s : Survey) : Dir → Bool → Survey
  | .N, b => { s with top := b }
  | .S, b => { s with bottom := b }
  | .W, b => { s with left := b }
  | .E, b => { s with right := b }

/-- Room: wall state plus the start and treasure flags, as in mazelib.Room.
Modelled from the spec: mazelib's Room struct, with AddWall setting and
RmWall clearing one wall boolean, is not among the provided files. -/
structure Room : Type where
  walls : Survey
  start : Bool
  treasure : Bool
deriving DecidableEq, Repr

/-- The zero-value room: no walls, no flags. -/
def emptyRoom : Room := ⟨emptySurvey, false, false⟩

/-- mazelib.Room.AddWall: set one wall flag. Modelled from the spec. -/
def Room.addWall (r : Room) (d : Dir) : Room := { r with walls := r.walls.setWall d true }

/-- mazelib.Room.RmWall: clear one wall flag. Modelled from the spec. -/
def Room.rmWall (r : Room) (d : Dir) : Room := { r with walls := r.walls.setWall d false }

/-- The server's Maze struct: room grid (represented as a total function on
coordinates; only in-bounds coordinates are ever read or written), start and
end coordinates, Icarus's position, and the step counter. -/
structure Maze : Type where
  width : Nat
  height : Nat
  rooms : Coordinate → Room
  start : Coordinate
  endc : Coordinate
  icarus : Coordinate
  stepsTaken : Nat

/-- The bounds test of Maze.GetRoom (and, equivalently, Maze.contains). -/
def Maze.containsXY (m : Maze) (x y : Int) : Bool :=
  decide (0 ≤ x ∧ x < (m.width : Int) ∧ 0 ≤ y ∧ y < (m.height : Int))

/-- Maze.contains for a coordinate. -/
def Maze.containsC (m : Maze) (c : Coordinate) : Bool := m.containsXY c.x c.y

/-- Maze.GetRoom: the room at (x, y), or none for the
"room outside of maze boundaries" error. -/
def Maze.getRoom? (m : Maze) (x y : Int) : Option Room :=
  if m.containsXY x y then some (m.rooms ⟨x, y⟩) else none

/-- Update the room at a coordinate through the given function; outside the
grid this is a no-op, mirroring Go mutations through the dummy room pointer
that GetRoom returns on error. -/
def Maze.modifyRoom (m : Maze) (c : Coordinate) (f : Room → Room) : Maze :=
  if m.containsC c then
    { m with rooms := fun c' => if c' = c then f (m.rooms c) else m.rooms c' }
  else m

/-- The wall flag of the room at a coordinate in a direction. -/
def Maze.wallAt (m : Maze) (c : Coordinate) (d : Dir) : Bool :=
  (m.rooms c).walls.hasWall d

/-- The errors movement and discovery can surface: the victory signal
(mazelib.ErrVictory), the wall rejection ("Can't walk through walls"),
and the bounds rejection ("room outside of maze boundaries"). -/
inductive MoveErr : Type
  | victory | wallBlock | outside
deriving DecidableEq, Repr

/-- Maze.Discover: survey the room at (x, y).  The source's out-of-bounds
branch returns an empty survey together with a nil error, so the error
component of the result is always none. -/
def Maze.discover (m : Maze) (x y : Int) : Survey × Option MoveErr :=
  match m.getRoom? x y with
  | none => (emptySurvey, none)
  | some r => (r.walls, none)

/-- Maze.LookAround: the victory signal when Icarus stands on the treasure,
otherwise Discover at Icarus's position. -/
def Maze.lookAround (m : Maze) : Survey × Option MoveErr :=
  if m.endc.x = m.icarus.x ∧ m.endc.y = m.icarus.y then (emptySurvey, some .victory)
  else m.discover m.icarus.x m.icarus.y

/-- The common body of Maze.MoveLeft, MoveRight, MoveUp and MoveDown, over
the direction of the attempted step (left = W, right = E, up = N,
down = S): look around (propagating its error), reject on a wall flag in
that direction, reject when the destination room is out of bounds, and
otherwise step there and count it.  The state component of the result is
the maze after the call; rejected calls return it unchanged, as the Go
methods return before mutating. -/
def Maze.move (m : Maze) (d : Dir) : Option MoveErr × Maze :=
  let se := m.lookAround
  match se.2 with
  | some e => (some e, m)
  | none =>
    if se.1.hasWall d then (some .wallBlock, m)
    else
      let nb := m.icarus.neighbor d
      match m.getRoom? nb.x nb.y with
      | none => (some .outside, m)
      | some _ => (none, { m with icarus := nb, stepsTaken := m.stepsTaken + 1 })

/-- Maze.MoveLeft. -/
def Maze.moveLeft (m : Maze) : Option MoveErr × Maze := m.move .W

/-- Maze.MoveRight. -/
def Maze.moveRight (m : Maze) : Option MoveErr × Maze := m.move .E

/-- Maze.MoveUp. -/
def Maze.moveUp (m : Maze) : Option MoveErr × Maze := m.move .N

/-- Maze.MoveDown. -/
def Maze.moveDown (m : Maze) : Option MoveErr × Maze := m.move .S

/-- One rand.Intn(n) draw: consume the next oracle value and reduce it into
[0, n) (Go guarantees this range; the reduction makes every in-range outcome
reachable from some oracle).  An exhausted oracle draws 0; the Go program
never exhausts its source. -/
def drawIntn (rng : List Nat) (n : Int) : Int × List Nat :=
  match rng with
  | [] => (0, [])
  | a :: rest => ((a : Int) % n, rest)

/-- The cutLimit constant of the server. -/
def cutLimit : Int := 3

/-- The server's rect struct. -/
structure rect : Type where
  x : Int
  y : Int
  w : Int
  h : Int
deriving DecidableEq, Repr

/-- rect.contains. -/
def rect.containsB (r : rect) (c : Coordinate) : Bool :=
  decide (r.x ≤ c.x ∧ c.x < r.x + r.w ∧ r.y ≤ c.y ∧ c.y < r.y + r.h)

/-- The door-position draw shared by cuth and cutv: rand.Intn(n) + base,
re-drawn once if the result coincides with v1 or v2. -/
def drawDoor (rng : List Nat) (n base v1 v2 : Int) : Int × List Nat :=
  let p1 := drawIntn rng n
  if p1.1 + base = v1 ∨ p1.1 + base = v2 then
    (let q := drawIntn p1.2 n; (q.1 + base, q.2))
  else (p1.1 + base, p1.2)

/-- rect.cuth: try to cut the region with a horizontal line.  The line sits
below row cy - 1, where cy is the truncated mean of src.Y and dst.Y plus
one; the door column cx is drawn at random in the region's x-extent and
re-drawn once if it hits src.X or dst.X. -/
def rect.cuth (r : rect) (src dst : Coordinate) (rng : List Nat) :
    Option (rect × Coordinate × rect × Coordinate) × List Nat :=
  if src.y = dst.y ∨ r.h ≤ cutLimit then (none, rng)
  else
    let cy := Int.tdiv (src.y + dst.y) 2 + 1
    let p2 := drawDoor rng r.w r.x src.x dst.x
    let r1 : rect := ⟨r.x, r.y, r.w, cy - r.y⟩
    let r2 : rect := ⟨r.x, cy, r.w, r.h - r1.h⟩
    if r1.containsB src then (some (r1, ⟨p2.1, cy - 1⟩, r2, ⟨p2.1, cy⟩), p2.2)
    else (some (r2, ⟨p2.1, cy⟩, r1, ⟨p2.1, cy - 1⟩), p2.2)

/-- rect.cutv: try to cut the region with a vertical line, symmetrically to
cuth. -/
def rect.cutv (r : rect) (src dst : Coordinate) (rng : List Nat) :
    Option (rect × Coordinate × rect × Coordinate) × List Nat :=
  if src.x = dst.x ∨ r.w ≤ cutLimit then (none, rng)
  else
    let cx := Int.tdiv (src.x + dst.x) 2 + 1
    let p2 := drawDoor rng r.h r.y src.y dst.y
    let r1 : rect := ⟨r.x, r.y, cx - r.x, r.h⟩
    let r2 : rect := ⟨cx, r.y, r.w - r1.w, r.h⟩
    if r1.containsB src then (some (r1, ⟨cx - 1, p2.1⟩, r2, ⟨cx, p2.1⟩), p2.2)
    else (some (r2, ⟨cx, p2.1⟩, r1, ⟨cx - 1, p2.1⟩), p2.2)

/-- rect.cut: both orientations are attempted (each consuming its random
draws exactly when its validity checks pass, as in the source where both
run against the shared random source); when both are valid the cut along
the longer dimension wins. -/
def rect.cut (r : rect) (src dst : Coordinate) (rng : List Nat) :
    Option (rect × Coordinate × rect × Coordinate) × List Nat :=
  let ph := r.cuth src dst rng
  let pv := r.cutv src dst ph.2
  match ph.1, pv.1 with
  | none, v => (v, pv.2)
  | some hcut, none => (some hcut, pv.2)
  | some hcut, some vcut => if r.w > r.h then (some vcut, pv.2) else (some hcut, pv.2)

/-- L1 distance between coordinates; the number of unit steps the naive
route walks, used as the fuel that makes its loop structural. -/
def l1dist (a b : Coordinate) : Nat := (a.x - b.x).natAbs + (a.y - b.y).natAbs

/-- One iteration step of findNaiveRoute's loop: the drawn axis choice z,
overridden to the x-axis when the rows agree (the source's later check wins)
and otherwise to the y-axis when the columns agree, then one unit step
toward dst on the chosen axis. -/
def naiveNext (c dst : Coordinate) (z : Int) : Coordinate :=
  if (if c.y = dst.y then (1 : Int) else if c.x = dst.x then 0 else z) = 0 then
    (if c.y < dst.y then c.down else c.up)
  else (if c.x < dst.x then c.right else c.left)

/-- The loop of findNaiveRoute: while c differs from dst, record c, draw the
axis choice and take one unit step toward dst; finally record dst.  Fuel
counts the remaining steps; it never runs out when started at the L1
distance. -/
def findNaiveRouteAux (dst : Coordinate) : Nat → List Nat → Coordinate → List Coordinate × List Nat
  | 0, rng, _ => ([dst], rng)
  | fuel + 1, rng, c =>
    if c = dst then ([dst], rng)
    else
      let p := drawIntn rng 2
      let q := findNaiveRouteAux dst fuel p.2 (naiveNext c dst p.1)
      (c :: q.1, q.2)

/-- findNaiveRoute: the axis-at-a-time walk from src to dst. -/
def findNaiveRoute (rng : List Nat) (src dst : Coordinate) : List Coordinate × List Nat :=
  findNaiveRouteAux dst (l1dist src dst) rng src

/-- rect.findRoute: recursive route construction.  A successful cut yields
two sub-regions, each holding one endpoint and one door cell; the
concatenated sub-routes form the route.  The source recursion terminates
because every cut strictly shrinks the region; fuel makes that explicit,
and the fuel-exhausted branch coincides with the no-valid-cut branch. -/
def rect.findRoute : Nat → List Nat → rect → Coordinate → Coordinate → List Coordinate × List Nat
  | 0, rng, _, src, dst => findNaiveRoute rng src dst
  | fuel + 1, rng, r, src, dst =>
    match r.cut src dst rng with
    | (none, rng') => findNaiveRoute rng' src dst
    | (some (rs, cs, rd, cd), rng') =>
      let q1 := rect.findRoute fuel rng' rs src cs
      let q2 := rect.findRoute fuel q1.2 rd cd dst
      (q1.1 ++ q2.1, q2.2)

/-- Maze.contains (the builder's bounds test for neighbor cells). -/
def Maze.toRect (m : Maze) : rect := ⟨0, 0, m.width, m.height⟩

/-- Maze.addWall: seal one side of a cell; when the facing neighbor lies in
the grid, also seal the neighbor's reciprocal side. -/
def Maze.addWall (m : Maze) (c : Coordinate) (d : Dir) : Maze :=
  let nb := c.neighbor d
  if m.containsC nb then
    (m.modifyRoom c (fun r => r.addWall d)).modifyRoom nb (fun r => r.addWall d.rev)
  else m

/-- Maze.sealRoom: add all four walls of a cell. -/
def Maze.sealRoom (m : Maze) (c : Coordinate) : Maze :=
  (((m.addWall c .N).addWall c .S).addWall c .E).addWall c .W

/-- Maze.removeWallBetween: open the wall of c1 toward c2 and the wall of c2
toward c1. -/
def Maze.removeWallBetween (m : Maze) (c1 c2 : Coordinate) : Maze :=
  (m.modifyRoom c1 (fun r => r.rmWall (c1.getDir c2))).modifyRoom c2
    (fun r => r.rmWall (c2.getDir c1))

/-- Maze.paveRoute: seal every route cell, then open the wall between each
consecutive pair (removeWallBetween(route[i], route[i-1])). -/
def Maze.paveRoute (m : Maze) (route : List Coordinate) : Maze :=
  let m1 := route.foldl (fun m c => m.sealRoom c) m
  (route.zip route.tail).foldl (fun m p => m.removeWallBetween p.2 p.1) m1

/-- Maze.floodfill: seal the reached cell, open the wall back to the cell it
was reached from, mark it explored, and recurse into unexplored in-grid
neighbors (in Neighbors order).  The source recursion terminates because the
explored set grows; fuel makes that explicit and is passed ample at the call
site. -/
def Maze.floodfill : Nat → Maze → Coordinate → Coordinate → List Coordinate → Maze × List Coordinate
  | 0, m, _, _, ex => (m, ex)
  | fuel + 1, m, c, frm, ex =>
    let m1 := (m.sealRoom c).removeWallBetween c frm
    let ex1 := c :: ex
    c.neighborsList.foldl
      (fun p nb => if p.1.containsC nb ∧ nb ∉ p.2 then Maze.floodfill fuel p.1 nb c p.2 else p)
      (m1, ex1)

/-- Maze.buildMaze: find and pave a route from src to dst, mark the route
explored, then flood-fill from the neighbors of route cells.  The source
visits route cells in the order rand.Perm(len(route)-1); that drawn order is
the order parameter (note the source draws a permutation of one less than
the route length). -/
def Maze.buildMaze (m : Maze) (src dst : Coordinate) (rng : List Nat) (order : List Nat) : Maze :=
  let route := (rect.findRoute (m.width * m.height) rng m.toRect src dst).1
  let m1 := m.paveRoute route
  let ex0 := route.foldl (fun e c => c :: e) ([] : List Coordinate)
  let p := order.foldl
    (fun (p : Maze × List Coordinate) idx =>
      let c := route.getD idx ⟨0, 0⟩
      c.neighborsList.foldl
        (fun q nb =>
          if q.1.containsC nb ∧ nb ∉ q.2 then Maze.floodfill (m.width * m.height) q.1 nb c q.2
          else q)
        p)
    (m1, ex0)
  p.1

/-- emptyMaze: a wall-free grid of the configured size, with zero-valued
start, end and position fields. -/
def emptyMaze (W H : Nat) : Maze :=
  { width := W, height := H, rooms := fun _ => emptyRoom,
    start := ⟨0, 0⟩, endc := ⟨0, 0⟩, icarus := ⟨0, 0⟩, stepsTaken := 0 }

/-- Maze.SetStartPoint: flag the room and place Icarus there; a bounds error
or a treasure collision leaves the maze unchanged (createMaze discards the
returned error). -/
def Maze.setStartPoint (m : Maze) (x y : Int) : Maze :=
  match m.getRoom? x y with
  | none => m
  | some r =>
    if r.treasure then m
    else { m.modifyRoom ⟨x, y⟩ (fun r => { r with start := true }) with icarus := ⟨x, y⟩ }

/-- Maze.SetTreasure: flag the room and record the end coordinate; a bounds
error or a start collision leaves the maze unchanged. -/
def Maze.setTreasure (m : Maze) (x y : Int) : Maze :=
  match m.getRoom? x y with
  | none => m
  | some r =>
    if r.start then m
    else { m.modifyRoom ⟨x, y⟩ (fun r => { r with treasure := true }) with endc := ⟨x, y⟩ }

/-- Maze.addBoundary: a North wall on every row-0 cell and a South wall on
every last-row cell, then a West wall on every column-0 cell and an East
wall on every last-column cell, added one-sided through GetRoom.  The
source reads Width() and Height() inside the loops; both are invariant
under the wall mutations, so they are read once here. -/
def Maze.addBoundary (m : Maze) : Maze :=
  let W := m.width
  let H := m.height
  let m1 := (List.range W).foldl
    (fun ma (x : Nat) =>
      (ma.modifyRoom ⟨(x : Int), 0⟩ (fun r => r.addWall .N)).modifyRoom
        ⟨(x : Int), (H : Int) - 1⟩ (fun r => r.addWall .S)) m
  (List.range H).foldl
    (fun ma (y : Nat) =>
      (ma.modifyRoom ⟨0, (y : Int)⟩ (fun r => r.addWall .W)).modifyRoom
        ⟨(W : Int) - 1, (y : Int)⟩ (fun r => r.addWall .E)) m1

/-- createMaze: empty grid, start and treasure placement, boundary sealing,
then buildMaze.  The start and treasure coordinates s and d stand for the
outcome of the source's rand.Intn draws (re-drawn there until distinct);
theorems quantify over all outcomes through hypotheses on s and d. -/
def createMaze (W H : Nat) (s d : Coordinate) (rng : List Nat) (order : List Nat) : Maze :=
  let m := emptyMaze W H
  let m1 := m.setStartPoint s.x s.y
  let m2 := m1.setTreasure d.x d.y
  let m3 := m2.addBoundary
  m3.buildMaze s d rng order

/-- All in-grid coordinates, row by row. -/
def coordList (W H : Nat) : List Coordinate :=
  (List.range H).flatMap (fun y => (List.range W).map (fun x => ⟨(x : Int), (y : Int)⟩))

/-- The number of open adjacent room pairs: for every cell, its East and
South edges count when the facing cell is in the grid and neither side
carries a wall. -/
def Maze.openPairs (m : Maze) : Nat :=
  ((coordList m.width m.height).map (fun c =>
    (if m.containsC c.right ∧ m.wallAt c .E = false ∧ m.wallAt c.right .W = false then 1 else 0) +
    (if m.containsC c.down ∧ m.wallAt c .S = false ∧ m.wallAt c.down .N = false then 1 else 0))).sum

theorem neighbor_rev (c : Coordinate) (d : Dir) : (c.neighbor d).neighbor d.rev = c := by
  cases c; cases d <;>
    simp [Coordinate.neighbor, Dir.rev, Coordinate.up, Coordinate.down, Coordinate.left,
      Coordinate.right]

theorem neighbor_ne (c : Coordinate) (d : Dir) : c.neighbor d ≠ c := by
  cases c; cases d <;>
    simp [Coordinate.neighbor, Coordinate.up, Coordinate.down, Coordinate.left,
      Coordinate.right] <;> omega

theorem adjacent_cases (a b : Coordinate) (h : a.adjacent b) :
    b = a.up ∨ b = a.down ∨ b = a.left ∨ b = a.right := by
  simpa [Coordinate.adjacent, Coordinate.neighborsList] using h

/-- C10: GetDir applied to a cell and its neighbor in direction d returns d,
and for grid-adjacent cells a and b, stepping from a in direction
GetDir(a, b) lands on b, so GetDir is a left inverse of Neighbor. -/
theorem C10_getDir_neighbor_inverse :
    (∀ (c : Coordinate) (d : Dir), c.getDir (c.neighbor d) = d) ∧
    (∀ a b : Coordinate, a.adjacent b → a.neighbor (a.getDir b) = b) := by
  constructor
  · intro c d
    cases d <;>
      simp only [Coordinate.getDir, Coordinate.neighbor, Coordinate.up, Coordinate.down,
        Coordinate.left, Coordinate.right] <;>
      split_ifs <;> first | rfl | omega
  · intro a b h
    rcases adjacent_cases a b h with rfl | rfl | rfl | rfl <;>
      simp only [Coordinate.getDir, Coordinate.neighbor, Coordinate.up, Coordinate.down,
        Coordinate.left, Coordinate.right] <;>
      split_ifs <;> first | rfl | (exfalso; omega) | (apply Coordinate.ext <;> simp <;> omega)

theorem C10_witness :
    (⟨0, 0⟩ : Coordinate).adjacent ⟨1, 0⟩ ∧
      (⟨0, 0⟩ : Coordinate).neighbor ((⟨0, 0⟩ : Coordinate).getDir ⟨1, 0⟩) = ⟨1, 0⟩ :=
  ⟨by decide, C10_getDir_neighbor_inverse.2 ⟨0, 0⟩ ⟨1, 0⟩ (by decide)⟩

/-- C4: the claim says discover fails with an out-of-bounds condition for a
coordinate outside the grid; the source's out-of-bounds branch returns a nil
error (contradicting Discover's own doc comment), so the error component is
none and the caller receives an empty survey.  Shown on a generated 2-by-2
maze at (-1, 0). -/
theorem C4_discover_out_of_bounds_nil_error :
    (createMaze 2 2 ⟨0, 0⟩ ⟨1, 1⟩ [0, 0, 0, 0] [0]).containsXY (-1) 0 = false ∧
    (createMaze 2 2 ⟨0, 0⟩ ⟨1, 1⟩ [0, 0, 0, 0] [0]).discover (-1) 0 = (emptySurvey, none) := by
  constructor
  · decide
  · decide

/-- A generated 2-by-1 maze with start (0,0) and treasure (1,0). -/
def cm21 : Maze := createMaze 2 1 ⟨0, 0⟩ ⟨1, 0⟩ [0] [0]

/-- The same session after the accepted move onto the treasure: Icarus
stands on the treasure cell. -/
def mAtTreasure : Maze := (cm21.move .E).2

set_option maxRecDepth 8000 in
/-- C3 counterexample: with the occupant on the treasure cell, no wall to
the West and the West neighbor inside the grid, move still fails (with the
victory error from LookAround), refuting "failure occurs in exactly those
two cases". -/
theorem C3_counterexample_victory_rejection :
    (mAtTreasure.move .W).1 = some MoveErr.victory ∧
    mAtTreasure.icarus = mAtTreasure.endc ∧
    mAtTreasure.wallAt mAtTreasure.icarus .W = false ∧
    mAtTreasure.containsC (mAtTreasure.icarus.neighbor .W) = true := by
  refine ⟨?_, ?_, ?_, ?_⟩ <;> decide

/-- C3 (amended): provided the occupant is in the grid and not standing on
the treasure, move fails with the wall rejection when the current room has
a wall in that direction, fails with the bounds rejection when the room has
no such wall but the prospective neighbor lies outside the grid, and
otherwise succeeds, moving the occupant to the neighbor and incrementing
the step counter; when the occupant is on the treasure the move is instead
rejected with the victory signal (see the counterexample). -/
theorem C3_move_cases (m : Maze) (d : Dir)
    (hin : m.containsC m.icarus = true) (hnv : m.icarus ≠ m.endc) :
    (m.wallAt m.icarus d = true → m.move d = (some .wallBlock, m)) ∧
    (m.wallAt m.icarus d = false → m.containsC (m.icarus.neighbor d) = false →
      m.move d = (some .outside, m)) ∧
    (m.wallAt m.icarus d = false → m.containsC (m.icarus.neighbor d) = true →
      m.move d = (none, { m with
                          icarus := m.icarus.neighbor d
                          stepsTaken := m.stepsTaken + 1 })) := by
  have hend : ¬(m.endc.x = m.icarus.x ∧ m.endc.y = m.icarus.y) := by
    rintro ⟨h1, h2⟩
    exact hnv (Coordinate.ext h1.symm h2.symm)
  have hc : m.containsXY m.icarus.x m.icarus.y = true := hin
  have hla : m.lookAround = ((m.rooms m.icarus).walls, none) := by
    simp [Maze.lookAround, if_neg hend, Maze.discover, Maze.getRoom?, hc]
  refine ⟨fun hw => ?_, fun hw hnb => ?_, fun hw hnb => ?_⟩
  · simp only [Maze.wallAt] at hw
    simp [Maze.move, hla, hw]
  · simp only [Maze.wallAt] at hw
    have hnb' : m.containsXY (m.icarus.neighbor d).x (m.icarus.neighbor d).y = false := hnb
    simp [Maze.move, hla, hw, Maze.getRoom?, hnb']
  · simp only [Maze.wallAt] at hw
    have hnb' : m.containsXY (m.icarus.neighbor d).x (m.icarus.neighbor d).y = true := hnb
    simp [Maze.move, hla, hw, Maze.getRoom?, hnb']

set_option maxRecDepth 8000 in
theorem C3_witness :
    cm21.containsC cm21.icarus = true ∧
    (cm21.wallAt cm21.icarus .E = false →
      cm21.containsC (cm21.icarus.neighbor .E) = true →
      cm21.move .E =
        (none, { cm21 with
                 icarus := cm21.icarus.neighbor .E
                 stepsTaken := cm21.stepsTaken + 1 })) :=
  ⟨by decide, (C3_move_cases cm21 .E (by decide) (by decide)).2.2⟩

/-- C5: a rejected move (any rejection: wall, bounds, or the victory signal)
leaves the session state unchanged; an accepted move sets the occupant to
the neighbor and increments the step counter by exactly one; the step
counter never decreases. -/
theorem C5_rejected_move_frame (m : Maze) (d : Dir) :
    ((m.move d).1 ≠ none → (m.move d).2 = m) ∧
    ((m.move d).1 = none → (m.move d).2.icarus = m.icarus.neighbor d ∧
      (m.move d).2.stepsTaken = m.stepsTaken + 1 ∧ (m.move d).2.rooms = m.rooms) ∧
    m.stepsTaken ≤ (m.move d).2.stepsTaken := by
  rcases h2 : (m.lookAround).2 with _ | e
  · by_cases hwall : (m.lookAround).1.hasWall d = true
    · simp [Maze.move, h2, hwall]
    · simp only [Bool.not_eq_true] at hwall
      rcases hroom : m.getRoom? (m.icarus.neighbor d).x (m.icarus.neighbor d).y with _ | r
      · simp [Maze.move, h2, hwall, hroom]
      · simp [Maze.move, h2, hwall, hroom]
  · simp [Maze.move, h2]

set_option maxRecDepth 8000 in
theorem C5_witness : (cm21.move .W).1 ≠ none ∧ (cm21.move .W).2 = cm21 :=
  ⟨by decide, (C5_rejected_move_frame cm21 .W).1 (by decide)⟩

set_option maxRecDepth 8000 in
/-- C1: on the 5-by-1 grid with start (3,0) and treasure (1,0) (a reachable
outcome of the random draws, whatever the remaining draws), the generated
maze has 3 open adjacent pairs instead of 5*1 - 1 = 4, and cell (0,0) is
sealed on all four sides, so the open-passage graph is not a spanning tree:
buildMaze seeds the flood fill from rand.Perm(len(route)-1), which skips the
last route cell, and (0,0) is adjacent only to that cell. -/
theorem C1_spanning_tree_failure :
    (createMaze 5 1 ⟨3, 0⟩ ⟨1, 0⟩ [0, 0, 0] [0, 1]).openPairs = 3 ∧
    ¬(createMaze 5 1 ⟨3, 0⟩ ⟨1, 0⟩ [0, 0, 0] [0, 1]).openPairs = 5 * 1 - 1 ∧
    (createMaze 5 1 ⟨3, 0⟩ ⟨1, 0⟩ [0, 0, 0] [0, 1]).rooms ⟨0, 0⟩ =
      ⟨⟨true, true, true, true⟩, false, false⟩ := by
  refine ⟨by decide, by decide, by decide⟩

theorem drawIntn_bounds (rng : List Nat) (n : Int) (hn : 0 < n) :
    0 ≤ (drawIntn rng n).1 ∧ (drawIntn rng n).1 < n := by
  cases rng with
  | nil => simpa [drawIntn] using hn
  | cons a rest =>
    exact ⟨Int.emod_nonneg _ (by omega), Int.emod_lt_of_pos _ hn⟩

/-- C9 counterexample: in the horizontal cut of region (0,0,4,4) with
src (0,0) and dst (3,1), the cut line sits at y = 1 = dst.y for any random
draws (two very different oracles shown), so the cut position on the cut
axis is neither randomized within the region nor re-drawn when it coincides
with dst's coordinate; only the door column varies with the draws. -/
theorem C9_counterexample_cut_line_deterministic :
    (rect.cuth ⟨0, 0, 4, 4⟩ ⟨0, 0⟩ ⟨3, 1⟩ [0, 0]).1 =
      some (⟨0, 0, 4, 1⟩, ⟨0, 0⟩, ⟨0, 1, 4, 3⟩, ⟨0, 1⟩) ∧
    (rect.cuth ⟨0, 0, 4, 4⟩ ⟨0, 0⟩ ⟨3, 1⟩ [5, 7]).1 =
      some (⟨0, 0, 4, 1⟩, ⟨1, 0⟩, ⟨0, 1, 4, 3⟩, ⟨1, 1⟩) ∧
    (⟨3, 1⟩ : Coordinate).y = 1 := by
  refine ⟨by decide, by decide, by decide⟩

/-- C9 (amended): in every valid cut step the cut line position on the cut
axis is deterministic, the truncated mean of src's and dst's coordinates
plus one; the randomized quantity, drawn within the region's extent on the
perpendicular axis and re-drawn exactly once if it coincides with src's or
dst's coordinate on that axis, is the position of the door pair along the
cut line. -/
theorem C9_cut_randomness_amended :
    (∀ (r : rect) (src dst : Coordinate) (rng : List Nat),
      src.y ≠ dst.y → cutLimit < r.h → 0 < r.w →
      ∃ rs rd : rect, ∃ rng' : List Nat,
        (let cy := Int.tdiv (src.y + dst.y) 2 + 1
         let a := (drawIntn rng r.w).1 + r.x
         let b := (drawIntn (drawIntn rng r.w).2 r.w).1 + r.x
         let cx := if a = src.x ∨ a = dst.x then b else a
         (r.cuth src dst rng = (some (rs, ⟨cx, cy - 1⟩, rd, ⟨cx, cy⟩), rng') ∨
          r.cuth src dst rng = (some (rs, ⟨cx, cy⟩, rd, ⟨cx, cy - 1⟩), rng')) ∧
         r.x ≤ cx ∧ cx < r.x + r.w)) ∧
    (∀ (r : rect) (src dst : Coordinate) (rng : List Nat),
      src.x ≠ dst.x → cutLimit < r.w → 0 < r.h →
      ∃ rs rd : rect, ∃ rng' : List Nat,
        (let cx := Int.tdiv (src.x + dst.x) 2 + 1
         let a := (drawIntn rng r.h).1 + r.y
         let b := (drawIntn (drawIntn rng r.h).2 r.h).1 + r.y
         let cy := if a = src.y ∨ a = dst.y then b else a
         (r.cutv src dst rng = (some (rs, ⟨cx - 1, cy⟩, rd, ⟨cx, cy⟩), rng') ∨
          r.cutv src dst rng = (some (rs, ⟨cx, cy⟩, rd, ⟨cx - 1, cy⟩), rng')) ∧
         r.y ≤ cy ∧ cy < r.y + r.h)) := by
  constructor
  · intro r src dst rng hy hh hw
    have hcond : ¬(src.y = dst.y ∨ r.h ≤ cutLimit) := by
      push_neg; exact ⟨hy, hh⟩
    have hb1 := drawIntn_bounds rng r.w hw
    have hb2 := drawIntn_bounds (drawIntn rng r.w).2 r.w hw
    simp only [rect.cuth, drawDoor, if_neg hcond]
    by_cases hretry : (drawIntn rng r.w).1 + r.x = src.x ∨ (drawIntn rng r.w).1 + r.x = dst.x
    · simp only [if_pos hretry]
      split_ifs with hc
      · exact ⟨_, _, _, Or.inl rfl, by omega, by omega⟩
      · exact ⟨_, _, _, Or.inr rfl, by omega, by omega⟩
    · simp only [if_neg hretry]
      split_ifs with hc
      · exact ⟨_, _, _, Or.inl rfl, by omega, by omega⟩
      · exact ⟨_, _, _, Or.inr rfl, by omega, by omega⟩
  · intro r src dst rng hx hw hh
    have hcond : ¬(src.x = dst.x ∨ r.w ≤ cutLimit) := by
      push_neg; exact ⟨hx, hw⟩
    have hb1 := drawIntn_bounds rng r.h hh
    have hb2 := drawIntn_bounds (drawIntn rng r.h).2 r.h hh
    simp only [rect.cutv, drawDoor, if_neg hcond]
    by_cases hretry : (drawIntn rng r.h).1 + r.y = src.y ∨ (drawIntn rng r.h).1 + r.y = dst.y
    · simp only [if_pos hretry]
      split_ifs with hc
      · exact ⟨_, _, _, Or.inl rfl, by omega, by omega⟩
      · exact ⟨_, _, _, Or.inr rfl, by omega, by omega⟩
    · simp only [if_neg hretry]
      split_ifs with hc
      · exact ⟨_, _, _, Or.inl rfl, by omega, by omega⟩
      · exact ⟨_, _, _, Or.inr rfl, by omega, by omega⟩

theorem C9_witness :
    (⟨0, 0⟩ : Coordinate).y ≠ (⟨3, 1⟩ : Coordinate).y ∧
    cutLimit < (⟨0, 0, 4, 4⟩ : rect).h ∧ 0 < (⟨0, 0, 4, 4⟩ : rect).w ∧
    (∃ rs rd : rect, ∃ rng' : List Nat,
      (let cy := Int.tdiv ((⟨0, 0⟩ : Coordinate).y + (⟨3, 1⟩ : Coordinate).y) 2 + 1
       let a := (drawIntn [0, 0] (⟨0, 0, 4, 4⟩ : rect).w).1 + (⟨0, 0, 4, 4⟩ : rect).x
       let b := (drawIntn (drawIntn [0, 0] (⟨0, 0, 4, 4⟩ : rect).w).2
                   (⟨0, 0, 4, 4⟩ : rect).w).1 + (⟨0, 0, 4, 4⟩ : rect).x
       let cx := if a = (⟨0, 0⟩ : Coordinate).x ∨ a = (⟨3, 1⟩ : Coordinate).x then b else a
       ((⟨0, 0, 4, 4⟩ : rect).cuth ⟨0, 0⟩ ⟨3, 1⟩ [0, 0] =
           (some (rs, ⟨cx, cy - 1⟩, rd, ⟨cx, cy⟩), rng') ∨
        (⟨0, 0, 4, 4⟩ : rect).cuth ⟨0, 0⟩ ⟨3, 1⟩ [0, 0] =
           (some (rs, ⟨cx, cy⟩, rd, ⟨cx, cy - 1⟩), rng')) ∧
       (⟨0, 0, 4, 4⟩ : rect).x ≤ cx ∧ cx < (⟨0, 0, 4, 4⟩ : rect).x + (⟨0, 0, 4, 4⟩ : rect).w)) :=
  ⟨by decide, by decide, by decide,
    C9_cut_randomness_amended.1 ⟨0, 0, 4, 4⟩ ⟨0, 0⟩ ⟨3, 1⟩ [0, 0] (by decide) (by decide)
      (by decide)⟩

theorem getDir_neighbor_eq (c : Coordinate) (d : Dir) : c.getDir (c.neighbor d) = d := by
  cases d <;>
    simp only [Coordinate.getDir, Coordinate.neighbor, Coordinate.up, Coordinate.down,
      Coordinate.left, Coordinate.right] <;>
    split_ifs <;> first | rfl | omega

theorem adjacent_iff_neighbor (a b : Coordinate) : a.adjacent b ↔ ∃ d : Dir, b = a.neighbor d := by
  constructor
  · intro h
    rcases adjacent_cases a b h with rfl | rfl | rfl | rfl
    exacts [⟨.N, rfl⟩, ⟨.S, rfl⟩, ⟨.W, rfl⟩, ⟨.E, rfl⟩]
  · rintro ⟨d, rfl⟩
    cases d <;> simp [Coordinate.adjacent, Coordinate.neighborsList, Coordinate.neighbor]

theorem hasWall_setWall (s : Survey) (d d' : Dir) (b : Bool) :
    (s.setWall d b).hasWall d' = if d' = d then b else s.hasWall d' := by
  cases d <;> cases d' <;> simp [Survey.setWall, Survey.hasWall]

theorem width_modifyRoom (m : Maze) (c : Coordinate) (f : Room → Room) :
    (m.modifyRoom c f).width = m.width := by
  unfold Maze.modifyRoom; split_ifs <;> rfl

theorem height_modifyRoom (m : Maze) (c : Coordinate) (f : Room → Room) :
    (m.modifyRoom c f).height = m.height := by
  unfold Maze.modifyRoom; split_ifs <;> rfl

theorem containsC_congr (m m' : Maze) (hw : m'.width = m.width) (hh : m'.height = m.height)
    (c : Coordinate) : m'.containsC c = m.containsC c := by
  simp [Maze.containsC, Maze.containsXY, hw, hh]

theorem containsC_modifyRoom (m : Maze) (c c' : Coordinate) (f : Room → Room) :
    (m.modifyRoom c f).containsC c' = m.containsC c' :=
  containsC_congr _ _ (width_modifyRoom _ _ _) (height_modifyRoom _ _ _) _

theorem wallAt_modifyAdd (m : Maze) (c : Coordinate) (d : Dir) (c' : Coordinate) (d' : Dir) :
    (m.modifyRoom c (fun r => r.addWall d)).wallAt c' d' =
      if c' = c ∧ m.containsC c = true ∧ d' = d then true else m.wallAt c' d' := by
  by_cases hg : m.containsC c = true
  · simp only [Maze.modifyRoom, hg, if_true]
    by_cases he : c' = c
    · subst he
      simp only [Maze.wallAt, if_pos rfl, Room.addWall, hasWall_setWall, hg]
      split_ifs <;> simp_all [hasWall_setWall]
    · simp only [Maze.wallAt, if_neg he]
      split_ifs <;> simp_all
  · simp only [Maze.modifyRoom, hg, if_false]
    split_ifs <;> simp_all

theorem wallAt_modifyRm (m : Maze) (c : Coordinate) (d : Dir) (c' : Coordinate) (d' : Dir) :
    (m.modifyRoom c (fun r => r.rmWall d)).wallAt c' d' =
      if c' = c ∧ m.containsC c = true ∧ d' = d then false else m.wallAt c' d' := by
  by_cases hg : m.containsC c = true
  · simp only [Maze.modifyRoom, hg, if_true]
    by_cases he : c' = c
    · subst he
      simp only [Maze.wallAt, if_pos rfl, Room.rmWall, hasWall_setWall, hg]
      split_ifs <;> simp_all [hasWall_setWall]
    · simp only [Maze.wallAt, if_neg he]
      split_ifs <;> simp_all
  · simp only [Maze.modifyRoom, hg, if_false]
    split_ifs <;> simp_all

theorem width_addWall (m : Maze) (c : Coordinate) (d : Dir) : (m.addWall c d).width = m.width := by
  simp only [Maze.addWall]
  split_ifs <;> simp [width_modifyRoom]

theorem height_addWall (m : Maze) (c : Coordinate) (d : Dir) :
    (m.addWall c d).height = m.height := by
  simp only [Maze.addWall]
  split_ifs <;> simp [height_modifyRoom]

theorem wallAt_addWall (m : Maze) (c : Coordinate) (d : Dir) (c' : Coordinate) (d' : Dir) :
    (m.addWall c d).wallAt c' d' =
      if m.containsC (c.neighbor d) = true then
        (if c' = c.neighbor d ∧ d' = d.rev then true
         else if c' = c ∧ m.containsC c = true ∧ d' = d then true
         else m.wallAt c' d')
      else m.wallAt c' d' := by
  simp only [Maze.addWall]
  by_cases hg : m.containsC (c.neighbor d) = true
  · simp only [hg, if_true]
    rw [wallAt_modifyAdd, containsC_modifyRoom, wallAt_modifyAdd]
    split_ifs <;> tauto
  · simp only [Bool.not_eq_true] at hg
    simp only [hg, Bool.false_eq_true, if_false]

theorem rev_rev (d : Dir) : d.rev.rev = d := by cases d <;> rfl

theorem containsC_iff (m : Maze) (c : Coordinate) :
    m.containsC c = true ↔
      0 ≤ c.x ∧ c.x < (m.width : Int) ∧ 0 ≤ c.y ∧ c.y < (m.height : Int) := by
  simp [Maze.containsC, Maze.containsXY]

theorem width_removeWallBetween (m : Maze) (c1 c2 : Coordinate) :
    (m.removeWallBetween c1 c2).width = m.width := by
  unfold Maze.removeWallBetween
  simp [width_modifyRoom]

theorem height_removeWallBetween (m : Maze) (c1 c2 : Coordinate) :
    (m.removeWallBetween c1 c2).height = m.height := by
  unfold Maze.removeWallBetween
  simp [height_modifyRoom]

theorem wallAt_removeWallBetween (m : Maze) (c1 c2 : Coordinate) (c' : Coordinate) (d' : Dir) :
    (m.removeWallBetween c1 c2).wallAt c' d' =
      if c' = c2 ∧ m.containsC c2 = true ∧ d' = c2.getDir c1 then false
      else if c' = c1 ∧ m.containsC c1 = true ∧ d' = c1.getDir c2 then false
      else m.wallAt c' d' := by
  unfold Maze.removeWallBetween
  rw [wallAt_modifyRm, containsC_modifyRoom, wallAt_modifyRm]

theorem width_sealRoom (m : Maze) (c : Coordinate) : (m.sealRoom c).width = m.width := by
  unfold Maze.sealRoom
  simp [width_addWall]

theorem height_sealRoom (m : Maze) (c : Coordinate) : (m.sealRoom c).height = m.height := by
  unfold Maze.sealRoom
  simp [height_addWall]

theorem mono_addWall (m : Maze) (c : Coordinate) (d : Dir) (a : Coordinate) (e : Dir)
    (h : m.wallAt a e = true) : (m.addWall c d).wallAt a e = true := by
  rw [wallAt_addWall]
  split_ifs <;> simp_all

theorem mono_sealRoom (m : Maze) (c : Coordinate) (a : Coordinate) (e : Dir)
    (h : m.wallAt a e = true) : (m.sealRoom c).wallAt a e = true := by
  unfold Maze.sealRoom
  exact mono_addWall _ _ _ _ _ (mono_addWall _ _ _ _ _ (mono_addWall _ _ _ _ _
    (mono_addWall _ _ _ _ _ h)))

/-- Wall symmetry: for every in-grid cell and in-grid neighbor, the wall
flags on the two sides of the shared edge agree. -/
def wallSymmetric (m : Maze) : Prop :=
  ∀ (c : Coordinate) (d : Dir), m.containsC c = true → m.containsC (c.neighbor d) = true →
    m.wallAt c d = m.wallAt (c.neighbor d) d.rev

/-- Boundary sealing: every row-0 cell has a North wall, every last-row cell
a South wall, every column-0 cell a West wall, every last-column cell an
East wall. -/
def boundarySealed (m : Maze) : Prop :=
  ∀ c : Coordinate, m.containsC c = true →
    (c.y = 0 → m.wallAt c .N = true) ∧
    (c.y = (m.height : Int) - 1 → m.wallAt c .S = true) ∧
    (c.x = 0 → m.wallAt c .W = true) ∧
    (c.x = (m.width : Int) - 1 → m.wallAt c .E = true)

theorem rev_inj (d1 d2 : Dir) : d1.rev = d2.rev ↔ d1 = d2 := by
  cases d1 <;> cases d2 <;> simp [Dir.rev]

theorem neighbor_left_inj (a b : Coordinate) (d : Dir) : a.neighbor d = b.neighbor d ↔ a = b := by
  cases d <;>
    simp [Coordinate.neighbor, Coordinate.up, Coordinate.down, Coordinate.left,
      Coordinate.right, Coordinate.ext_iff]

theorem sym_addWall (m : Maze) (c : Coordinate) (d : Dir) (h : wallSymmetric m) :
    wallSymmetric (m.addWall c d) := by
  intro a e ha hb
  rw [containsC_congr m _ (width_addWall m c d) (height_addWall m c d)] at ha hb
  rw [wallAt_addWall, wallAt_addWall]
  by_cases hg : m.containsC (c.neighbor d) = true
  · simp only [hg, if_true]
    by_cases p1 : a = c.neighbor d ∧ e = d.rev
    · obtain ⟨rfl, rfl⟩ := p1
      rw [if_pos ⟨rfl, rfl⟩]
      have hb' : m.containsC c = true := by rwa [neighbor_rev] at hb
      by_cases q1 : (c.neighbor d).neighbor d.rev = c.neighbor d ∧ d.rev.rev = d.rev
      · rw [if_pos q1]
      · rw [if_neg q1, if_pos ⟨by rw [neighbor_rev], hb', by rw [rev_rev]⟩]
    · rw [if_neg p1]
      by_cases p2 : a = c ∧ m.containsC c = true ∧ e = d
      · obtain ⟨rfl, hcc, rfl⟩ := p2
        rw [if_pos ⟨rfl, hcc, rfl⟩, if_pos ⟨rfl, rfl⟩]
      · rw [if_neg p2]
        have q1 : ¬(a.neighbor e = c.neighbor d ∧ e.rev = d.rev) := by
          rintro ⟨h1, h2⟩
          rw [rev_inj] at h2
          subst h2
          rw [neighbor_left_inj] at h1
          exact p2 ⟨h1, by rwa [h1] at ha, rfl⟩
        have q2 : ¬(a.neighbor e = c ∧ m.containsC c = true ∧ e.rev = d) := by
          rintro ⟨h1, hcc, h2⟩
          apply p1
          constructor
          · rw [← h1, ← h2, neighbor_rev]
          · rw [← h2, rev_rev]
        rw [if_neg q1, if_neg q2]
        exact h a e ha hb
  · simp only [Bool.not_eq_true] at hg
    simp only [hg, Bool.false_eq_true, if_false]
    exact h a e ha hb

theorem sym_sealRoom (m : Maze) (c : Coordinate) (h : wallSymmetric m) :
    wallSymmetric (m.sealRoom c) := by
  unfold Maze.sealRoom
  exact sym_addWall _ _ _ (sym_addWall _ _ _ (sym_addWall _ _ _ (sym_addWall _ _ _ h)))

theorem sym_removeWallBetween (m : Maze) (c1 c2 : Coordinate) (hadj : c1.adjacent c2)
    (h : wallSymmetric m) : wallSymmetric (m.removeWallBetween c1 c2) := by
  obtain ⟨dd, rfl⟩ := (adjacent_iff_neighbor c1 c2).mp hadj
  intro a e ha hb
  rw [containsC_congr m _ (width_removeWallBetween m _ _)
    (height_removeWallBetween m _ _)] at ha hb
  have hd1 : c1.getDir (c1.neighbor dd) = dd := getDir_neighbor_eq _ _
  have hd2 : (c1.neighbor dd).getDir c1 = dd.rev := by
    have := getDir_neighbor_eq (c1.neighbor dd) dd.rev
    rwa [neighbor_rev] at this
  rw [wallAt_removeWallBetween, wallAt_removeWallBetween, hd1, hd2]
  by_cases p1 : a = c1.neighbor dd ∧ m.containsC (c1.neighbor dd) = true ∧ e = dd.rev
  · obtain ⟨rfl, hcc, rfl⟩ := p1
    rw [if_pos ⟨rfl, hcc, rfl⟩]
    have hb' : m.containsC c1 = true := by rwa [neighbor_rev] at hb
    rw [if_neg ?hq1, if_pos ⟨by rw [neighbor_rev], hb', by rw [rev_rev]⟩]
    case hq1 =>
      rintro ⟨hh, -⟩
      rw [neighbor_rev] at hh
      exact neighbor_ne c1 dd hh.symm
  · rw [if_neg p1]
    by_cases p2 : a = c1 ∧ m.containsC c1 = true ∧ e = dd
    · obtain ⟨rfl, hcc, rfl⟩ := p2
      rw [if_pos ⟨rfl, hcc, rfl⟩, if_pos ⟨rfl, hb, rfl⟩]
    · rw [if_neg p2]
      have q1 : ¬(a.neighbor e = c1.neighbor dd ∧ m.containsC (c1.neighbor dd) = true ∧
          e.rev = dd.rev) := by
        rintro ⟨h1, hcc, h2⟩
        rw [rev_inj] at h2
        subst h2
        rw [neighbor_left_inj] at h1
        exact p2 ⟨h1, by rwa [h1] at ha, rfl⟩
      have q2 : ¬(a.neighbor e = c1 ∧ m.containsC c1 = true ∧ e.rev = dd) := by
        rintro ⟨h1, hcc, h2⟩
        apply p1
        refine ⟨?_, ?_, ?_⟩
        · rw [← h1, ← h2, neighbor_rev]
        · rw [← h1, ← h2, neighbor_rev]
          exact ha
        · rw [← h2, rev_rev]
      rw [if_neg q1, if_neg q2]
      exact h a e ha hb

theorem bnd_of_mono (m m' : Maze) (hw : m'.width = m.width) (hh : m'.height = m.height)
    (hmono : ∀ a e, m.wallAt a e = true → m'.wallAt a e = true)
    (h : boundarySealed m) : boundarySealed m' := by
  intro c hc
  rw [containsC_congr m m' hw hh] at hc
  obtain ⟨p1, p2, p3, p4⟩ := h c hc
  rw [hw, hh]
  exact ⟨fun q => hmono _ _ (p1 q), fun q => hmono _ _ (p2 q),
    fun q => hmono _ _ (p3 q), fun q => hmono _ _ (p4 q)⟩

theorem bnd_addWall (m : Maze) (c : Coordinate) (d : Dir) (h : boundarySealed m) :
    boundarySealed (m.addWall c d) :=
  bnd_of_mono m _ (width_addWall m c d) (height_addWall m c d)
    (fun a e => mono_addWall m c d a e) h

theorem bnd_sealRoom (m : Maze) (c : Coordinate) (h : boundarySealed m) :
    boundarySealed (m.sealRoom c) :=
  bnd_of_mono m _ (width_sealRoom m c) (height_sealRoom m c)
    (fun a e => mono_sealRoom m c a e) h

theorem bnd_removeWallBetween (m : Maze) (c1 c2 : Coordinate) (hadj : c1.adjacent c2)
    (h1 : m.containsC c1 = true) (h2 : m.containsC c2 = true)
    (h : boundarySealed m) : boundarySealed (m.removeWallBetween c1 c2) := by
  obtain ⟨dd, rfl⟩ := (adjacent_iff_neighbor c1 c2).mp hadj
  have hd1 : c1.getDir (c1.neighbor dd) = dd := getDir_neighbor_eq _ _
  have hd2 : (c1.neighbor dd).getDir c1 = dd.rev := by
    have := getDir_neighbor_eq (c1.neighbor dd) dd.rev
    rwa [neighbor_rev] at this
  have hrm : ∀ (x : Coordinate) (g : Dir), ¬(x = c1.neighbor dd ∧ g = dd.rev) →
      ¬(x = c1 ∧ g = dd) →
      (m.removeWallBetween c1 (c1.neighbor dd)).wallAt x g = m.wallAt x g := by
    intro x g hn1 hn2
    rw [wallAt_removeWallBetween, hd1, hd2,
      if_neg (fun hh => hn1 ⟨hh.1, hh.2.2⟩), if_neg (fun hh => hn2 ⟨hh.1, hh.2.2⟩)]
  rw [containsC_iff] at h1 h2
  intro c hc
  rw [containsC_congr m _ (width_removeWallBetween m _ _)
    (height_removeWallBetween m _ _)] at hc
  obtain ⟨p1, p2, p3, p4⟩ := h c hc
  rw [width_removeWallBetween, height_removeWallBetween]
  refine ⟨fun q => ?_, fun q => ?_, fun q => ?_, fun q => ?_⟩
  · rw [hrm c .N ?_ ?_]
    · exact p1 q
    · rintro ⟨rfl, hx⟩
      cases dd <;>
        first
          | exact absurd hx (by decide)
          | (simp only [Coordinate.neighbor, Coordinate.up, Coordinate.down, Coordinate.left,
               Coordinate.right] at q
             omega)
    · rintro ⟨rfl, rfl⟩
      simp only [Coordinate.neighbor, Coordinate.up, Coordinate.down, Coordinate.left,
        Coordinate.right] at h2
      omega
  · rw [hrm c .S ?_ ?_]
    · exact p2 q
    · rintro ⟨rfl, hx⟩
      cases dd <;>
        first
          | exact absurd hx (by decide)
          | (simp only [Coordinate.neighbor, Coordinate.up, Coordinate.down, Coordinate.left,
               Coordinate.right] at q
             omega)
    · rintro ⟨rfl, rfl⟩
      simp only [Coordinate.neighbor, Coordinate.up, Coordinate.down, Coordinate.left,
        Coordinate.right] at h2
      omega
  · rw [hrm c .W ?_ ?_]
    · exact p3 q
    · rintro ⟨rfl, hx⟩
      cases dd <;>
        first
          | exact absurd hx (by decide)
          | (simp only [Coordinate.neighbor, Coordinate.up, Coordinate.down, Coordinate.left,
               Coordinate.right] at q
             omega)
    · rintro ⟨rfl, rfl⟩
      simp only [Coordinate.neighbor, Coordinate.up, Coordinate.down, Coordinate.left,
        Coordinate.right] at h2
      omega
  · rw [hrm c .E ?_ ?_]
    · exact p4 q
    · rintro ⟨rfl, hx⟩
      cases dd <;>
        first
          | exact absurd hx (by decide)
          | (simp only [Coordinate.neighbor, Coordinate.up, Coordinate.down, Coordinate.left,
               Coordinate.right] at q
             omega)
    · rintro ⟨rfl, rfl⟩
      simp only [Coordinate.neighbor, Coordinate.up, Coordinate.down, Coordinate.left,
        Coordinate.right] at h2
      omega

theorem foldl_preserve_mem {β α : Type} (P : β → Prop) (f : β → α → β) (l : List α)
    (hf : ∀ b a, a ∈ l → P b → P (f b a)) : ∀ b, P b → P (l.foldl f b) := by
  induction l with
  | nil => exact fun b h => h
  | cons hd t ih =>
    intro b h
    exact ih (fun b a ha hb => hf b a (List.mem_cons_of_mem _ ha) hb) _
      (hf b hd (List.mem_cons_self _ _) h)

theorem adjacent_symm (a b : Coordinate) (h : a.adjacent b) : b.adjacent a := by
  rcases adjacent_cases a b h with rfl | rfl | rfl | rfl <;>
    simp [Coordinate.adjacent, Coordinate.neighborsList, Coordinate.up, Coordinate.down,
      Coordinate.left, Coordinate.right, Coordinate.ext_iff] <;> omega

theorem l1dist_eq_zero (c d : Coordinate) (h : l1dist c d = 0) : c = d := by
  unfold l1dist at h
  apply Coordinate.ext <;> omega

/-- Membership of a coordinate in the closed axis-aligned box spanned by two
coordinates. -/
def inBox (p q a : Coordinate) : Prop :=
  min p.x q.x ≤ a.x ∧ a.x ≤ max p.x q.x ∧ min p.y q.y ≤ a.y ∧ a.y ≤ max p.y q.y

theorem naive_step_spec (c dst : Coordinate) (hcd : c ≠ dst) (z : Int) :
    c.adjacent (naiveNext c dst z) ∧ l1dist (naiveNext c dst z) dst + 1 = l1dist c dst ∧
      (∀ a : Coordinate, inBox (naiveNext c dst z) dst a → inBox c dst a) := by
  have hne : ¬(c.x = dst.x ∧ c.y = dst.y) := by
    rintro ⟨hx, hy⟩; exact hcd (Coordinate.ext hx hy)
  by_cases hy : c.y = dst.y
  · have hx : ¬c.x = dst.x := fun hx => hne ⟨hx, hy⟩
    rw [naiveNext, if_pos hy, if_neg (by norm_num : (1 : Int) ≠ 0)]
    by_cases hlt : c.x < dst.x
    · rw [if_pos hlt]
      refine ⟨by simp [Coordinate.adjacent, Coordinate.neighborsList], ?_, ?_⟩
      · simp only [l1dist, Coordinate.right]
        omega
      · intro a ha
        simp only [inBox, Coordinate.right] at ha ⊢
        omega
    · rw [if_neg hlt]
      refine ⟨by simp [Coordinate.adjacent, Coordinate.neighborsList], ?_, ?_⟩
      · simp only [l1dist, Coordinate.left]
        omega
      · intro a ha
        simp only [inBox, Coordinate.left] at ha ⊢
        omega
  · by_cases hx : c.x = dst.x
    · rw [naiveNext, if_neg hy, if_pos hx, if_pos rfl]
      by_cases hlt : c.y < dst.y
      · rw [if_pos hlt]
        refine ⟨by simp [Coordinate.adjacent, Coordinate.neighborsList], ?_, ?_⟩
        · simp only [l1dist, Coordinate.down]
          omega
        · intro a ha
          simp only [inBox, Coordinate.down] at ha ⊢
          omega
      · rw [if_neg hlt]
        refine ⟨by simp [Coordinate.adjacent, Coordinate.neighborsList], ?_, ?_⟩
        · simp only [l1dist, Coordinate.up]
          omega
        · intro a ha
          simp only [inBox, Coordinate.up] at ha ⊢
          omega
    · rw [naiveNext, if_neg hy, if_neg hx]
      by_cases hz : z = 0
      · rw [if_pos hz]
        by_cases hlt : c.y < dst.y
        · rw [if_pos hlt]
          refine ⟨by simp [Coordinate.adjacent, Coordinate.neighborsList], ?_, ?_⟩
          · simp only [l1dist, Coordinate.down]
            omega
          · intro a ha
            simp only [inBox, Coordinate.down] at ha ⊢
            omega
        · rw [if_neg hlt]
          refine ⟨by simp [Coordinate.adjacent, Coordinate.neighborsList], ?_, ?_⟩
          · simp only [l1dist, Coordinate.up]
            omega
          · intro a ha
            simp only [inBox, Coordinate.up] at ha ⊢
            omega
      · rw [if_neg hz]
        by_cases hlt : c.x < dst.x
        · rw [if_pos hlt]
          refine ⟨by simp [Coordinate.adjacent, Coordinate.neighborsList], ?_, ?_⟩
          · simp only [l1dist, Coordinate.right]
            omega
          · intro a ha
            simp only [inBox, Coordinate.right] at ha ⊢
            omega
        · rw [if_neg hlt]
          refine ⟨by simp [Coordinate.adjacent, Coordinate.neighborsList], ?_, ?_⟩
          · simp only [l1dist, Coordinate.left]
            omega
          · intro a ha
            simp only [inBox, Coordinate.left] at ha ⊢
            omega

theorem findNaiveRouteAux_spec (dst : Coordinate) :
    ∀ (fuel : Nat) (rng : List Nat) (c : Coordinate), l1dist c dst ≤ fuel →
      (findNaiveRouteAux dst fuel rng c).1.head? = some c ∧
      (findNaiveRouteAux dst fuel rng c).1.getLast? = some dst ∧
      List.Chain' Coordinate.adjacent (findNaiveRouteAux dst fuel rng c).1 ∧
      ∀ a ∈ (findNaiveRouteAux dst fuel rng c).1, inBox c dst a := by
  intro fuel
  induction fuel with
  | zero =>
    intro rng c hle
    have hc : c = dst := l1dist_eq_zero c dst (Nat.le_zero.mp hle)
    subst hc
    refine ⟨rfl, rfl, List.chain'_singleton _, ?_⟩
    intro a ha
    have : a = c := by simpa [findNaiveRouteAux] using ha
    subst this
    simp only [inBox]
    omega
  | succ n ih =>
    intro rng c hle
    by_cases hcd : c = dst
    · subst hcd
      rw [findNaiveRouteAux]
      rw [if_pos rfl]
      refine ⟨rfl, rfl, List.chain'_singleton _, ?_⟩
      intro a ha
      have : a = c := by simpa using ha
      subst this
      simp only [inBox]
      omega
    · obtain ⟨hadj, hdist, hbox⟩ := naive_step_spec c dst hcd (drawIntn rng 2).1
      have hle' : l1dist (naiveNext c dst (drawIntn rng 2).1) dst ≤ n := by omega
      obtain ⟨ih1, ih2, ih3, ih4⟩ := ih (drawIntn rng 2).2 (naiveNext c dst (drawIntn rng 2).1) hle'
      have hne : (findNaiveRouteAux dst n (drawIntn rng 2).2
          (naiveNext c dst (drawIntn rng 2).1)).1 ≠ [] := by
        intro hnil
        rw [hnil] at ih1
        cases ih1
      rw [findNaiveRouteAux]
      simp only [if_neg hcd]
      refine ⟨rfl, ?_, ?_, ?_⟩
      · obtain ⟨b, t, hbt⟩ := List.exists_cons_of_ne_nil hne
        rw [hbt, List.getLast?_cons_cons, ← hbt]
        exact ih2
      · rw [List.chain'_cons']
        refine ⟨fun y hy => ?_, ih3⟩
        rw [Option.mem_def, ih1, Option.some.injEq] at hy
        subst hy
        exact hadj
      · intro a ha
        rcases List.mem_cons.mp ha with rfl | ha'
        · simp only [inBox]
          omega
        · exact hbox a (ih4 a ha')

theorem containsB_iff (r : rect) (c : Coordinate) :
    r.containsB c = true ↔ r.x ≤ c.x ∧ c.x < r.x + r.w ∧ r.y ≤ c.y ∧ c.y < r.y + r.h := by
  simp [rect.containsB]

theorem tdiv2_bounds (a b : Int) (h0 : 0 ≤ a) (hab : a < b) :
    a ≤ Int.tdiv (a + b) 2 ∧ Int.tdiv (a + b) 2 ≤ b - 1 := by
  have heq := Int.tdiv_add_tmod (a + b) 2
  have hm0 : 0 ≤ (a + b).tmod 2 := Int.tmod_nonneg 2 (by omega)
  have hm2 : (a + b).tmod 2 < 2 := Int.tmod_lt_of_pos _ (by omega)
  omega

theorem drawDoor_bounds (rng : List Nat) (n base v1 v2 : Int) (hn : 0 < n) :
    base ≤ (drawDoor rng n base v1 v2).1 ∧ (drawDoor rng n base v1 v2).1 < base + n := by
  have h1 := drawIntn_bounds rng n hn
  have h2 := drawIntn_bounds (drawIntn rng n).2 n hn
  simp only [drawDoor]
  split_ifs <;> constructor <;> simp only [] <;> omega

theorem adjacent_mk_down (x y1 y2 : Int) (h : y2 = y1 + 1) :
    (⟨x, y1⟩ : Coordinate).adjacent ⟨x, y2⟩ := by
  subst h
  simp [Coordinate.adjacent, Coordinate.neighborsList, Coordinate.down]

theorem adjacent_mk_right (x1 x2 y : Int) (h : x2 = x1 + 1) :
    (⟨x1, y⟩ : Coordinate).adjacent ⟨x2, y⟩ := by
  subst h
  simp [Coordinate.adjacent, Coordinate.neighborsList, Coordinate.right]

theorem adjacent_mk_up (x y1 y2 : Int) (h : y2 = y1 - 1) :
    (⟨x, y1⟩ : Coordinate).adjacent ⟨x, y2⟩ := by
  subst h
  simp [Coordinate.adjacent, Coordinate.neighborsList, Coordinate.up]

theorem adjacent_mk_left (x1 x2 y : Int) (h : x2 = x1 - 1) :
    (⟨x1, y⟩ : Coordinate).adjacent ⟨x2, y⟩ := by
  subst h
  simp [Coordinate.adjacent, Coordinate.neighborsList, Coordinate.left]

theorem cuth_spec (r : rect) (src dst : Coordinate) (rng : List Nat)
    (h0x : 0 ≤ r.x) (h0y : 0 ≤ r.y)
    (hs : r.containsB src = true) (hd : r.containsB dst = true)
    (rs rd : rect) (cs cd : Coordinate) (rng' : List Nat)
    (hres : r.cuth src dst rng = (some (rs, cs, rd, cd), rng')) :
    rs.containsB src = true ∧ rs.containsB cs = true ∧ rd.containsB cd = true ∧
    rd.containsB dst = true ∧ cs.adjacent cd ∧
    0 ≤ rs.x ∧ 0 ≤ rs.y ∧ 0 ≤ rd.x ∧ 0 ≤ rd.y ∧
    (∀ a, rs.containsB a = true → r.containsB a = true) ∧
    (∀ a, rd.containsB a = true → r.containsB a = true) := by
  rw [rect.cuth] at hres
  by_cases hcond : src.y = dst.y ∨ r.h ≤ cutLimit
  · rw [if_pos hcond] at hres
    simp at hres
  · rw [if_neg hcond] at hres
    simp only [] at hres
    push_neg at hcond
    obtain ⟨hy, hh⟩ := hcond
    rw [containsB_iff] at hs hd
    have hw : (0 : Int) < r.w := by omega
    have hdoor := drawDoor_bounds rng r.w r.x src.x dst.x hw
    have hcyb : (src.y < dst.y →
        src.y + 1 ≤ Int.tdiv (src.y + dst.y) 2 + 1 ∧
        Int.tdiv (src.y + dst.y) 2 + 1 ≤ dst.y) ∧
        (dst.y < src.y →
        dst.y + 1 ≤ Int.tdiv (src.y + dst.y) 2 + 1 ∧
        Int.tdiv (src.y + dst.y) 2 + 1 ≤ src.y) := by
      constructor
      · intro hlt
        have := tdiv2_bounds src.y dst.y (by omega) hlt
        omega
      · intro hlt
        have := tdiv2_bounds dst.y src.y (by omega) hlt
        rw [Int.add_comm dst.y src.y] at this
        omega
    split_ifs at hres with hb
    · simp only [containsB_iff] at hb
      simp only [Prod.mk.injEq, Option.some.injEq] at hres
      obtain ⟨⟨rfl, rfl, rfl, rfl⟩, rfl⟩ := hres
      simp only [containsB_iff]
      have hord : src.y < dst.y := by
        rcases lt_or_gt_of_ne hy with hlt | hgt
        · exact hlt
        · exact absurd (hcyb.2 hgt) (by omega)
      have hcy := hcyb.1 hord
      refine ⟨by omega, by omega, by omega, by omega, ?_, by omega, by omega, by omega, by omega,
        ?_, ?_⟩
      · exact adjacent_mk_down _ _ _ (by omega)
      · intro a ha
        omega
      · intro a ha
        omega
    · simp only [containsB_iff] at hb
      push_neg at hb
      simp only [Prod.mk.injEq, Option.some.injEq] at hres
      obtain ⟨⟨rfl, rfl, rfl, rfl⟩, rfl⟩ := hres
      simp only [containsB_iff]
      have hord : dst.y < src.y := by
        rcases lt_or_gt_of_ne hy with hlt | hgt
        · exact absurd (hcyb.1 hlt) (by intro hcy; have := hb (by omega) (by omega) (by omega); omega)
        · exact hgt
      have hcy := hcyb.2 hord
      refine ⟨by omega, by omega, by omega, by omega, ?_, by omega, by omega, by omega, by omega,
        ?_, ?_⟩
      · exact adjacent_mk_up _ _ _ (by omega)
      · intro a ha
        omega
      · intro a ha
        omega

theorem cutv_spec (r : rect) (src dst : Coordinate) (rng : List Nat)
    (h0x : 0 ≤ r.x) (h0y : 0 ≤ r.y)
    (hs : r.containsB src = true) (hd : r.containsB dst = true)
    (rs rd : rect) (cs cd : Coordinate) (rng' : List Nat)
    (hres : r.cutv src dst rng = (some (rs, cs, rd, cd), rng')) :
    rs.containsB src = true ∧ rs.containsB cs = true ∧ rd.containsB cd = true ∧
    rd.containsB dst = true ∧ cs.adjacent cd ∧
    0 ≤ rs.x ∧ 0 ≤ rs.y ∧ 0 ≤ rd.x ∧ 0 ≤ rd.y ∧
    (∀ a, rs.containsB a = true → r.containsB a = true) ∧
    (∀ a, rd.containsB a = true → r.containsB a = true) := by
  rw [rect.cutv] at hres
  by_cases hcond : src.x = dst.x ∨ r.w ≤ cutLimit
  · rw [if_pos hcond] at hres
    simp at hres
  · rw [if_neg hcond] at hres
    simp only [] at hres
    push_neg at hcond
    obtain ⟨hx, hw'⟩ := hcond
    rw [containsB_iff] at hs hd
    have hh : (0 : Int) < r.h := by omega
    have hdoor := drawDoor_bounds rng r.h r.y src.y dst.y hh
    have hcxb : (src.x < dst.x →
        src.x + 1 ≤ Int.tdiv (src.x + dst.x) 2 + 1 ∧
        Int.tdiv (src.x + dst.x) 2 + 1 ≤ dst.x) ∧
        (dst.x < src.x →
        dst.x + 1 ≤ Int.tdiv (src.x + dst.x) 2 + 1 ∧
        Int.tdiv (src.x + dst.x) 2 + 1 ≤ src.x) := by
      constructor
      · intro hlt
        have := tdiv2_bounds src.x dst.x (by omega) hlt
        omega
      · intro hlt
        have := tdiv2_bounds dst.x src.x (by omega) hlt
        rw [Int.add_comm dst.x src.x] at this
        omega
    split_ifs at hres with hb
    · simp only [containsB_iff] at hb
      simp only [Prod.mk.injEq, Option.some.injEq] at hres
      obtain ⟨⟨rfl, rfl, rfl, rfl⟩, rfl⟩ := hres
      simp only [containsB_iff]
      have hord : src.x < dst.x := by
        rcases lt_or_gt_of_ne hx with hlt | hgt
        · exact hlt
        · exact absurd (hcxb.2 hgt) (by omega)
      have hcx := hcxb.1 hord
      refine ⟨by omega, by omega, by omega, by omega, ?_, by omega, by omega, by omega, by omega,
        ?_, ?_⟩
      · exact adjacent_mk_right _ _ _ (by omega)
      · intro a ha
        omega
      · intro a ha
        omega
    · simp only [containsB_iff] at hb
      push_neg at hb
      simp only [Prod.mk.injEq, Option.some.injEq] at hres
      obtain ⟨⟨rfl, rfl, rfl, rfl⟩, rfl⟩ := hres
      simp only [containsB_iff]
      have hord : dst.x < src.x := by
        rcases lt_or_gt_of_ne hx with hlt | hgt
        · exact absurd (hcxb.1 hlt)
            (by intro hcx; have := hb (by omega) (by omega) (by omega); omega)
        · exact hgt
      have hcx := hcxb.2 hord
      refine ⟨by omega, by omega, by omega, by omega, ?_, by omega, by omega, by omega, by omega,
        ?_, ?_⟩
      · exact adjacent_mk_left _ _ _ (by omega)
      · intro a ha
        omega
      · intro a ha
        omega

theorem cut_spec (r : rect) (src dst : Coordinate) (rng : List Nat)
    (h0x : 0 ≤ r.x) (h0y : 0 ≤ r.y)
    (hs : r.containsB src = true) (hd : r.containsB dst = true)
    (rs rd : rect) (cs cd : Coordinate) (rng' : List Nat)
    (hres : r.cut src dst rng = (some (rs, cs, rd, cd), rng')) :
    rs.containsB src = true ∧ rs.containsB cs = true ∧ rd.containsB cd = true ∧
    rd.containsB dst = true ∧ cs.adjacent cd ∧
    0 ≤ rs.x ∧ 0 ≤ rs.y ∧ 0 ≤ rd.x ∧ 0 ≤ rd.y ∧
    (∀ a, rs.containsB a = true → r.containsB a = true) ∧
    (∀ a, rd.containsB a = true → r.containsB a = true) := by
  obtain ⟨oph, rngh, hph⟩ : ∃ o g, r.cuth src dst rng = (o, g) := ⟨_, _, rfl⟩
  obtain ⟨opv, rngv, hpv⟩ : ∃ o g, r.cutv src dst rngh = (o, g) := ⟨_, _, rfl⟩
  rw [rect.cut] at hres
  simp only [hph, hpv] at hres
  rcases oph with _ | hcut <;> rcases opv with _ | vcut
  · simp at hres
  · obtain ⟨vrs, vcs, vrd, vcd⟩ := vcut
    simp only [Prod.mk.injEq, Option.some.injEq] at hres
    obtain ⟨⟨rfl, rfl, rfl, rfl⟩, rfl⟩ := hres
    exact cutv_spec r src dst rngh h0x h0y hs hd _ _ _ _ _ hpv
  · obtain ⟨hrs, hcs, hrd, hcd⟩ := hcut
    simp only [Prod.mk.injEq, Option.some.injEq] at hres
    obtain ⟨⟨rfl, rfl, rfl, rfl⟩, rfl⟩ := hres
    exact cuth_spec r src dst rng h0x h0y hs hd _ _ _ _ _ hph
  · obtain ⟨hrs, hcs, hrd, hcd⟩ := hcut
    obtain ⟨vrs, vcs, vrd, vcd⟩ := vcut
    split_ifs at hres with hwh
    · simp only [Prod.mk.injEq, Option.some.injEq] at hres
      obtain ⟨⟨rfl, rfl, rfl, rfl⟩, rfl⟩ := hres
      exact cutv_spec r src dst rngh h0x h0y hs hd _ _ _ _ _ hpv
    · simp only [Prod.mk.injEq, Option.some.injEq] at hres
      obtain ⟨⟨rfl, rfl, rfl, rfl⟩, rfl⟩ := hres
      exact cuth_spec r src dst rng h0x h0y hs hd _ _ _ _ _ hph

theorem head?_append_some {α : Type} (l1 l2 : List α) (a : α) (h : l1.head? = some a) :
    (l1 ++ l2).head? = some a := by
  cases l1 with
  | nil => cases h
  | cons b t => simpa using h

theorem getLast?_append_some {α : Type} (l1 l2 : List α) (a : α) (h : l2.getLast? = some a) :
    (l1 ++ l2).getLast? = some a := by
  rw [List.getLast?_append, h]
  rfl

theorem findRoute_spec :
    ∀ (fuel : Nat) (rng : List Nat) (r : rect) (src dst : Coordinate),
      0 ≤ r.x → 0 ≤ r.y → r.containsB src = true → r.containsB dst = true →
      ((rect.findRoute fuel rng r src dst).1.head? = some src ∧
       (rect.findRoute fuel rng r src dst).1.getLast? = some dst ∧
       List.Chain' Coordinate.adjacent (rect.findRoute fuel rng r src dst).1 ∧
       ∀ a ∈ (rect.findRoute fuel rng r src dst).1, r.containsB a = true) := by
  intro fuel
  induction fuel with
  | zero =>
    intro rng r src dst h0x h0y hs hd
    obtain ⟨n1, n2, n3, n4⟩ := findNaiveRouteAux_spec dst (l1dist src dst) rng src le_rfl
    refine ⟨n1, n2, n3, ?_⟩
    intro a ha
    have hbox := n4 a ha
    rw [containsB_iff] at hs hd ⊢
    unfold inBox at hbox
    omega
  | succ n ih =>
    intro rng r src dst h0x h0y hs hd
    obtain ⟨o, g, hcutres⟩ : ∃ o g, r.cut src dst rng = (o, g) := ⟨_, _, rfl⟩
    rcases o with _ | ⟨rs, cs, rd, cd⟩
    · rw [rect.findRoute, hcutres]
      obtain ⟨n1, n2, n3, n4⟩ := findNaiveRouteAux_spec dst (l1dist src dst) g src le_rfl
      refine ⟨n1, n2, n3, ?_⟩
      intro a ha
      have hbox := n4 a ha
      rw [containsB_iff] at hs hd ⊢
      unfold inBox at hbox
      omega
    · rw [rect.findRoute, hcutres]
      obtain ⟨hrs1, hrs2, hrd1, hrd2, hadj, h0xs, h0ys, h0xd, h0yd, hsub1, hsub2⟩ :=
        cut_spec r src dst rng h0x h0y hs hd rs rd cs cd g hcutres
      obtain ⟨q11, q12, q13, q14⟩ := ih g rs src cs h0xs h0ys hrs1 hrs2
      obtain ⟨q21, q22, q23, q24⟩ :=
        ih (rect.findRoute n g rs src cs).2 rd cd dst h0xd h0yd hrd1 hrd2
      refine ⟨?_, ?_, ?_, ?_⟩
      · exact head?_append_some _ _ _ q11
      · exact getLast?_append_some _ _ _ q22
      · refine List.Chain'.append q13 q23 ?_
        intro x hx y hy
        rw [Option.mem_def, q12, Option.some.injEq] at hx
        rw [Option.mem_def, q21, Option.some.injEq] at hy
        subst hx
        subst hy
        exact hadj
      · intro a ha
        rcases List.mem_append.mp ha with h | h
        · exact hsub1 a (q14 a h)
        · exact hsub2 a (q24 a h)

/-- In-grid test for fixed dimensions; containsC specializes to it. -/
def inGridB (W H : Nat) (c : Coordinate) : Bool :=
  decide (0 ≤ c.x ∧ c.x < (W : Int) ∧ 0 ≤ c.y ∧ c.y < (H : Int))

theorem containsC_eq_inGridB (m : Maze) (c : Coordinate) :
    m.containsC c = inGridB m.width m.height c := rfl

theorem containsC_false_of (m : Maze) (c : Coordinate)
    (h : ¬(0 ≤ c.x ∧ c.x < (m.width : Int) ∧ 0 ≤ c.y ∧ c.y < (m.height : Int))) :
    m.containsC c = false := by
  rw [Maze.containsC, Maze.containsXY, decide_eq_false_iff_not]
  exact h

theorem mono_modifyAdd (m : Maze) (c : Coordinate) (d : Dir) (a : Coordinate) (e : Dir)
    (h : m.wallAt a e = true) :
    (m.modifyRoom c (fun r => r.addWall d)).wallAt a e = true := by
  rw [wallAt_modifyAdd]
  split_ifs <;> simp_all

theorem sym_modifyAdd_offgrid (m : Maze) (c : Coordinate) (d : Dir)
    (hoff : m.containsC (c.neighbor d) = false) (h : wallSymmetric m) :
    wallSymmetric (m.modifyRoom c (fun r => r.addWall d)) := by
  intro a e ha hb
  rw [containsC_modifyRoom] at ha hb
  rw [wallAt_modifyAdd, wallAt_modifyAdd]
  have q1 : ¬(a = c ∧ m.containsC c = true ∧ e = d) := by
    rintro ⟨rfl, hcc, rfl⟩
    rw [hoff] at hb
    cases hb
  have q2 : ¬(a.neighbor e = c ∧ m.containsC c = true ∧ e.rev = d) := by
    rintro ⟨h1, hcc, h2⟩
    rw [← h1, ← h2, neighbor_rev] at hoff
    rw [ha] at hoff
    cases hoff
  rw [if_neg q1, if_neg q2]
  exact h a e ha hb

/-- The invariant carried through maze construction: fixed dimensions, wall
symmetry and sealed boundary. -/
def MazeInv (W H : Nat) (m : Maze) : Prop :=
  m.width = W ∧ m.height = H ∧ wallSymmetric m ∧ boundarySealed m

theorem inv_sealRoom (W H : Nat) (m : Maze) (c : Coordinate) (h : MazeInv W H m) :
    MazeInv W H (m.sealRoom c) :=
  ⟨by rw [width_sealRoom]; exact h.1, by rw [height_sealRoom]; exact h.2.1,
    sym_sealRoom m c h.2.2.1, bnd_sealRoom m c h.2.2.2⟩

theorem inv_removeWallBetween (W H : Nat) (m : Maze) (c1 c2 : Coordinate) (h : MazeInv W H m)
    (hadj : c1.adjacent c2) (h1 : inGridB W H c1 = true) (h2 : inGridB W H c2 = true) :
    MazeInv W H (m.removeWallBetween c1 c2) := by
  have hc1 : m.containsC c1 = true := by rw [containsC_eq_inGridB, h.1, h.2.1]; exact h1
  have hc2 : m.containsC c2 = true := by rw [containsC_eq_inGridB, h.1, h.2.1]; exact h2
  exact ⟨by rw [width_removeWallBetween]; exact h.1,
    by rw [height_removeWallBetween]; exact h.2.1,
    sym_removeWallBetween m c1 c2 hadj h.2.2.1,
    bnd_removeWallBetween m c1 c2 hadj hc1 hc2 h.2.2.2⟩

theorem zip_tail_spec :
    ∀ route : List Coordinate, List.Chain' Coordinate.adjacent route →
      ∀ p ∈ route.zip route.tail, p.1 ∈ route ∧ p.2 ∈ route ∧ p.1.adjacent p.2 := by
  intro route
  induction route with
  | nil => intro _ p hp; cases hp
  | cons a t ih =>
    intro hch p hp
    cases t with
    | nil => simp at hp
    | cons b t' =>
      rw [List.chain'_cons] at hch
      simp only [List.tail_cons] at hp
      rw [List.zip_cons_cons] at hp
      rcases List.mem_cons.mp hp with rfl | hp'
      · exact ⟨List.mem_cons_self _ _, List.mem_cons_of_mem _ (List.mem_cons_self _ _), hch.1⟩
      · obtain ⟨m1, m2, m3⟩ := ih hch.2 p (by simpa using hp')
        exact ⟨List.mem_cons_of_mem _ m1, List.mem_cons_of_mem _ m2, m3⟩

theorem inv_paveRoute (W H : Nat) (m : Maze) (route : List Coordinate) (hinv : MazeInv W H m)
    (hch : List.Chain' Coordinate.adjacent route)
    (hmem : ∀ c ∈ route, inGridB W H c = true) :
    MazeInv W H (m.paveRoute route) := by
  unfold Maze.paveRoute
  apply foldl_preserve_mem (MazeInv W H) _ (route.zip route.tail)
  · intro b p hp hb
    obtain ⟨m1, m2, m3⟩ := zip_tail_spec route hch p hp
    exact inv_removeWallBetween W H b p.2 p.1 hb (adjacent_symm _ _ m3) (hmem _ m2) (hmem _ m1)
  · exact foldl_preserve_mem (MazeInv W H) _ route
      (fun b c _ hb => inv_sealRoom W H b c hb) m hinv

theorem inv_floodfill (W H : Nat) :
    ∀ (fuel : Nat) (m : Maze) (c frm : Coordinate) (ex : List Coordinate),
      MazeInv W H m → inGridB W H c = true → inGridB W H frm = true → frm.adjacent c →
      MazeInv W H (Maze.floodfill fuel m c frm ex).1 := by
  intro fuel
  induction fuel with
  | zero => intro m c frm ex hinv _ _ _; exact hinv
  | succ n ih =>
    intro m c frm ex hinv hc hfrm hadj
    simp only [Maze.floodfill]
    have hm1 : MazeInv W H ((m.sealRoom c).removeWallBetween c frm) :=
      inv_removeWallBetween W H _ c frm (inv_sealRoom W H m c hinv)
        (adjacent_symm _ _ hadj) hc hfrm
    refine foldl_preserve_mem (fun p : Maze × List Coordinate => MazeInv W H p.1) _
      c.neighborsList ?_ _ hm1
    intro b nb hnb hb
    by_cases hcond : b.1.containsC nb = true ∧ nb ∉ b.2
    · rw [if_pos hcond]
      refine ih b.1 nb c b.2 hb ?_ hc hnb
      rw [containsC_eq_inGridB, hb.1, hb.2.1] at hcond
      exact hcond.1
    · rw [if_neg hcond]
      exact hb

theorem getD_mem_or_default (l : List Coordinate) (i : Nat) (d : Coordinate) :
    l.getD i d ∈ l ∨ l.getD i d = d := by
  rw [List.getD_eq_getElem?_getD]
  cases h : l[i]? with
  | none => right; rfl
  | some a =>
    left
    have := List.getElem?_mem h
    simpa using this

theorem inv_buildMaze (W H : Nat) (m : Maze) (src dst : Coordinate)
    (rng order : List Nat) (hinv : MazeInv W H m) (hW : 0 < W) (hH : 0 < H)
    (hs : inGridB W H src = true) (hd : inGridB W H dst = true) :
    MazeInv W H (m.buildMaze src dst rng order) := by
  obtain ⟨hw, hh, hsym, hbnd⟩ := hinv
  have htr : m.toRect = ⟨0, 0, (W : Int), (H : Int)⟩ := by
    rw [Maze.toRect, hw, hh]
  have hcb : ∀ c : Coordinate,
      rect.containsB ⟨0, 0, (W : Int), (H : Int)⟩ c = inGridB W H c := by
    intro c
    simp only [rect.containsB, inGridB, decide_eq_decide]
    constructor <;> intro <;> omega
  simp only [Maze.buildMaze]
  obtain ⟨f1, f2, f3, f4⟩ := findRoute_spec (m.width * m.height) rng m.toRect src dst
    (by rw [htr]) (by rw [htr]) (by rw [htr, hcb]; exact hs) (by rw [htr, hcb]; exact hd)
  have hmemG : ∀ c ∈ (rect.findRoute (m.width * m.height) rng m.toRect src dst).1,
      inGridB W H c = true := by
    intro c hcr
    have := f4 c hcr
    rwa [htr, hcb] at this
  have hpave : MazeInv W H
      (m.paveRoute (rect.findRoute (m.width * m.height) rng m.toRect src dst).1) :=
    inv_paveRoute W H m _ ⟨hw, hh, hsym, hbnd⟩ f3 hmemG
  refine (foldl_preserve_mem (fun p : Maze × List Coordinate => MazeInv W H p.1) _ order
    ?_ _ hpave)
  intro b idx _ hb
  have hcg : inGridB W H
      ((rect.findRoute (m.width * m.height) rng m.toRect src dst).1.getD idx ⟨0, 0⟩) = true := by
    rcases getD_mem_or_default (rect.findRoute (m.width * m.height) rng m.toRect src dst).1
        idx ⟨0, 0⟩ with hmm | hdef
    · exact hmemG _ hmm
    · rw [hdef]
      simp only [inGridB, decide_eq_true_iff]
      refine ⟨by simp, by simpa using hW, by simp, by simpa using hH⟩
  refine foldl_preserve_mem (fun p : Maze × List Coordinate => MazeInv W H p.1) _ _ ?_ _ hb
  intro b2 nb hnb hb2
  by_cases hcond : b2.1.containsC nb = true ∧ nb ∉ b2.2
  · rw [if_pos hcond]
    refine inv_floodfill W H (m.width * m.height) b2.1 nb _ b2.2 hb2 ?_ hcg hnb
    rw [containsC_eq_inGridB, hb2.1, hb2.2.1] at hcond
    exact hcond.1
  · rw [if_neg hcond]
    exact hb2

theorem foldl_establish {α : Type} (f : Maze → α → Maze) (P : Maze → Prop)
    (Q : α → Maze → Prop) (l : List α)
    (hP : ∀ m a, a ∈ l → P m → P (f m a))
    (hset : ∀ m a, a ∈ l → P m → Q a (f m a))
    (hmono : ∀ m a b, a ∈ l → P m → Q b m → Q b (f m a)) :
    ∀ m a, a ∈ l → P m → Q a (l.foldl f m) := by
  induction l with
  | nil => intro m a ha; cases ha
  | cons hd t ih =>
    intro m a ha hPm
    rcases List.mem_cons.mp ha with rfl | ht
    · have h0 : Q a (f m a) := hset m a (List.mem_cons_self _ _) hPm
      have hP0 : P (f m a) := hP m a (List.mem_cons_self _ _) hPm
      have := foldl_preserve_mem (fun mm => P mm ∧ Q a mm) f t
        (fun b x hx hb => ⟨hP b x (List.mem_cons_of_mem _ hx) hb.1,
          hmono b x a (List.mem_cons_of_mem _ hx) hb.1 hb.2⟩) (f m a) ⟨hP0, h0⟩
      exact this.2
    · exact ih (fun m a ha hm => hP m a (List.mem_cons_of_mem _ ha) hm)
        (fun m a ha hm => hset m a (List.mem_cons_of_mem _ ha) hm)
        (fun m x b hx hm hq => hmono m x b (List.mem_cons_of_mem _ hx) hm hq)
        (f m hd) a ht (hP m hd (List.mem_cons_self _ _) hPm)

theorem addBoundary_spec (W H : Nat) (m : Maze) (hW : 0 < W) (hH : 0 < H)
    (hw : m.width = W) (hh : m.height = H) (hsym : wallSymmetric m) :
    MazeInv W H m.addBoundary := by
  subst hw
  subst hh
  simp only [Maze.addBoundary]
  set P : Maze → Prop :=
    fun mm => mm.width = m.width ∧ mm.height = m.height ∧ wallSymmetric mm with hP
  have hPx : ∀ (ma : Maze) (x : Nat), x ∈ List.range m.width → P ma →
      P ((ma.modifyRoom ⟨(x : Int), 0⟩ (fun r => r.addWall .N)).modifyRoom
        ⟨(x : Int), (m.height : Int) - 1⟩ (fun r => r.addWall .S)) := by
    intro ma x _ hma
    refine ⟨by rw [width_modifyRoom, width_modifyRoom]; exact hma.1,
      by rw [height_modifyRoom, height_modifyRoom]; exact hma.2.1, ?_⟩
    refine sym_modifyAdd_offgrid _ _ _ ?_ (sym_modifyAdd_offgrid _ _ _ ?_ hma.2.2)
    · apply containsC_false_of
      rw [width_modifyRoom, height_modifyRoom, hma.1, hma.2.1]
      simp only [Coordinate.neighbor, Coordinate.down]
      omega
    · apply containsC_false_of
      simp only [Coordinate.neighbor, Coordinate.up]
      omega
  have hPy : ∀ (ma : Maze) (y : Nat), y ∈ List.range m.height → P ma →
      P ((ma.modifyRoom ⟨0, (y : Int)⟩ (fun r => r.addWall .W)).modifyRoom
        ⟨(m.width : Int) - 1, (y : Int)⟩ (fun r => r.addWall .E)) := by
    intro ma y _ hma
    refine ⟨by rw [width_modifyRoom, width_modifyRoom]; exact hma.1,
      by rw [height_modifyRoom, height_modifyRoom]; exact hma.2.1, ?_⟩
    refine sym_modifyAdd_offgrid _ _ _ ?_ (sym_modifyAdd_offgrid _ _ _ ?_ hma.2.2)
    · apply containsC_false_of
      rw [width_modifyRoom, height_modifyRoom, hma.1, hma.2.1]
      simp only [Coordinate.neighbor, Coordinate.right]
      omega
    · apply containsC_false_of
      simp only [Coordinate.neighbor, Coordinate.left]
      omega
  have hQset : ∀ (ma : Maze) (x : Nat), x ∈ List.range m.width → P ma →
      (((ma.modifyRoom ⟨(x : Int), 0⟩ (fun r => r.addWall .N)).modifyRoom
        ⟨(x : Int), (m.height : Int) - 1⟩ (fun r => r.addWall .S)).wallAt
          ⟨(x : Int), 0⟩ .N = true ∧
       ((ma.modifyRoom ⟨(x : Int), 0⟩ (fun r => r.addWall .N)).modifyRoom
        ⟨(x : Int), (m.height : Int) - 1⟩ (fun r => r.addWall .S)).wallAt
          ⟨(x : Int), (m.height : Int) - 1⟩ .S = true) := by
    intro ma x hx hma
    rw [List.mem_range] at hx
    have hcn : ma.containsC ⟨(x : Int), 0⟩ = true := by
      simp only [containsC_iff, hma.1, hma.2.1]
      omega
    have hcs : (ma.modifyRoom ⟨(x : Int), 0⟩ (fun r => r.addWall .N)).containsC
        ⟨(x : Int), (m.height : Int) - 1⟩ = true := by
      simp only [containsC_modifyRoom, containsC_iff, hma.1, hma.2.1]
      omega
    constructor
    · apply mono_modifyAdd
      rw [wallAt_modifyAdd, if_pos ⟨rfl, hcn, rfl⟩]
    · rw [wallAt_modifyAdd, if_pos ⟨rfl, hcs, rfl⟩]
  have hQ2set : ∀ (ma : Maze) (y : Nat), y ∈ List.range m.height → P ma →
      (((ma.modifyRoom ⟨0, (y : Int)⟩ (fun r => r.addWall .W)).modifyRoom
        ⟨(m.width : Int) - 1, (y : Int)⟩ (fun r => r.addWall .E)).wallAt
          ⟨0, (y : Int)⟩ .W = true ∧
       ((ma.modifyRoom ⟨0, (y : Int)⟩ (fun r => r.addWall .W)).modifyRoom
        ⟨(m.width : Int) - 1, (y : Int)⟩ (fun r => r.addWall .E)).wallAt
          ⟨(m.width : Int) - 1, (y : Int)⟩ .E = true) := by
    intro ma y hy hma
    rw [List.mem_range] at hy
    have hcw : ma.containsC ⟨0, (y : Int)⟩ = true := by
      simp only [containsC_iff, hma.1, hma.2.1]
      omega
    have hce : (ma.modifyRoom ⟨0, (y : Int)⟩ (fun r => r.addWall .W)).containsC
        ⟨(m.width : Int) - 1, (y : Int)⟩ = true := by
      simp only [containsC_modifyRoom, containsC_iff, hma.1, hma.2.1]
      omega
    constructor
    · apply mono_modifyAdd
      rw [wallAt_modifyAdd, if_pos ⟨rfl, hcw, rfl⟩]
    · rw [wallAt_modifyAdd, if_pos ⟨rfl, hce, rfl⟩]
  have hmono2 : ∀ (ma : Maze) (c : Coordinate) (e : Dir), ma.wallAt c e = true →
      ∀ (c1 : Coordinate) (d1 : Dir) (c2 : Coordinate) (d2 : Dir),
      ((ma.modifyRoom c1 (fun r => r.addWall d1)).modifyRoom c2
        (fun r => r.addWall d2)).wallAt c e = true := by
    intro ma c e hwall c1 d1 c2 d2
    exact mono_modifyAdd _ _ _ _ _ (mono_modifyAdd _ _ _ _ _ hwall)
  set m1 := (List.range m.width).foldl
    (fun ma x =>
      (ma.modifyRoom ⟨(x : Int), 0⟩ (fun r => r.addWall .N)).modifyRoom
        ⟨(x : Int), (m.height : Int) - 1⟩ (fun r => r.addWall .S)) m with hm1
  have hPm1 : P m1 := foldl_preserve_mem P _ _ hPx m ⟨rfl, rfl, hsym⟩
  have hQ1 : ∀ x : Nat, x ∈ List.range m.width →
      (m1.wallAt ⟨(x : Int), 0⟩ .N = true ∧
       m1.wallAt ⟨(x : Int), (m.height : Int) - 1⟩ .S = true) := by
    intro x hx
    exact foldl_establish _ P
      (fun (x : Nat) (mm : Maze) => mm.wallAt ⟨(x : Int), 0⟩ .N = true ∧
        mm.wallAt ⟨(x : Int), (m.height : Int) - 1⟩ .S = true)
      (List.range m.width) hPx hQset
      (fun ma a b _ _ hq => ⟨hmono2 ma _ _ hq.1 _ _ _ _, hmono2 ma _ _ hq.2 _ _ _ _⟩)
      m x hx ⟨rfl, rfl, hsym⟩
  set mf := (List.range m.height).foldl
    (fun ma y =>
      (ma.modifyRoom ⟨0, (y : Int)⟩ (fun r => r.addWall .W)).modifyRoom
        ⟨(m.width : Int) - 1, (y : Int)⟩ (fun r => r.addWall .E)) m1 with hmf
  have hPmf : P mf := foldl_preserve_mem P _ _ hPy m1 hPm1
  have hQ1f : ∀ x : Nat, x ∈ List.range m.width →
      (mf.wallAt ⟨(x : Int), 0⟩ .N = true ∧
       mf.wallAt ⟨(x : Int), (m.height : Int) - 1⟩ .S = true) := by
    intro x hx
    exact foldl_preserve_mem
      (fun mm => mm.wallAt ⟨(x : Int), 0⟩ .N = true ∧
        mm.wallAt ⟨(x : Int), (m.height : Int) - 1⟩ .S = true) _ _
      (fun b a _ hq => ⟨hmono2 b _ _ hq.1 _ _ _ _, hmono2 b _ _ hq.2 _ _ _ _⟩)
      m1 (hQ1 x hx)
  have hQ2f : ∀ y : Nat, y ∈ List.range m.height →
      (mf.wallAt ⟨0, (y : Int)⟩ .W = true ∧
       mf.wallAt ⟨(m.width : Int) - 1, (y : Int)⟩ .E = true) := by
    intro y hy
    exact foldl_establish _ P
      (fun (y : Nat) (mm : Maze) => mm.wallAt ⟨0, (y : Int)⟩ .W = true ∧
        mm.wallAt ⟨(m.width : Int) - 1, (y : Int)⟩ .E = true)
      (List.range m.height) hPy hQ2set
      (fun ma a b _ _ hq => ⟨hmono2 ma _ _ hq.1 _ _ _ _, hmono2 ma _ _ hq.2 _ _ _ _⟩)
      m1 y hy hPm1
  refine ⟨hPmf.1, hPmf.2.1, hPmf.2.2, ?_⟩
  intro c hc
  rw [containsC_eq_inGridB, hPmf.1, hPmf.2.1, inGridB, decide_eq_true_iff] at hc
  rw [hPmf.1, hPmf.2.1]
  have hxmem : c.x.toNat ∈ List.range m.width := by
    rw [List.mem_range]
    omega
  have hymem : c.y.toNat ∈ List.range m.height := by
    rw [List.mem_range]
    omega
  have hxc : ((c.x.toNat : Nat) : Int) = c.x := Int.toNat_of_nonneg hc.1
  have hyc : ((c.y.toNat : Nat) : Int) = c.y := Int.toNat_of_nonneg hc.2.2.1
  refine ⟨fun hq => ?_, fun hq => ?_, fun hq => ?_, fun hq => ?_⟩
  · have := (hQ1f c.x.toNat hxmem).1
    rwa [show (⟨(c.x.toNat : Int), 0⟩ : Coordinate) = c from Coordinate.ext hxc (by rw [hq])]
      at this
  · have := (hQ1f c.x.toNat hxmem).2
    rwa [show (⟨(c.x.toNat : Int), (m.height : Int) - 1⟩ : Coordinate) = c from
      Coordinate.ext hxc (by rw [hq])] at this
  · have := (hQ2f c.y.toNat hymem).1
    rwa [show (⟨0, (c.y.toNat : Int)⟩ : Coordinate) = c from Coordinate.ext (by rw [hq]) hyc]
      at this
  · have := (hQ2f c.y.toNat hymem).2
    rwa [show (⟨(m.width : Int) - 1, (c.y.toNat : Int)⟩ : Coordinate) = c from
      Coordinate.ext (by rw [hq]) hyc] at this

theorem wallAt_modifyRoom_walls (m : Maze) (c : Coordinate) (f : Room → Room)
    (hf : ∀ r, (f r).walls = r.walls) (c' : Coordinate) (d' : Dir) :
    (m.modifyRoom c f).wallAt c' d' = m.wallAt c' d' := by
  unfold Maze.modifyRoom Maze.wallAt
  split_ifs with h1
  · by_cases he : c' = c
    · subst he
      simp [hf]
    · simp [he]
  · rfl

theorem walls_setStartPoint (m : Maze) (x y : Int) :
    (m.setStartPoint x y).width = m.width ∧ (m.setStartPoint x y).height = m.height ∧
      ∀ (c : Coordinate) (d : Dir), (m.setStartPoint x y).wallAt c d = m.wallAt c d := by
  unfold Maze.setStartPoint
  rcases h : m.getRoom? x y with _ | r
  · exact ⟨rfl, rfl, fun c d => rfl⟩
  · simp only []
    split_ifs with ht
    · exact ⟨rfl, rfl, fun c d => rfl⟩
    · refine ⟨width_modifyRoom _ _ _, height_modifyRoom _ _ _, fun c d => ?_⟩
      show (m.modifyRoom ⟨x, y⟩ (fun r => { r with start := true })).wallAt c d = m.wallAt c d
      exact wallAt_modifyRoom_walls m ⟨x, y⟩ (fun r => { r with start := true })
        (fun r => rfl) c d

theorem walls_setTreasure (m : Maze) (x y : Int) :
    (m.setTreasure x y).width = m.width ∧ (m.setTreasure x y).height = m.height ∧
      ∀ (c : Coordinate) (d : Dir), (m.setTreasure x y).wallAt c d = m.wallAt c d := by
  unfold Maze.setTreasure
  rcases h : m.getRoom? x y with _ | r
  · exact ⟨rfl, rfl, fun c d => rfl⟩
  · simp only []
    split_ifs with ht
    · exact ⟨rfl, rfl, fun c d => rfl⟩
    · refine ⟨width_modifyRoom _ _ _, height_modifyRoom _ _ _, fun c d => ?_⟩
      show (m.modifyRoom ⟨x, y⟩ (fun r => { r with treasure := true })).wallAt c d = m.wallAt c d
      exact wallAt_modifyRoom_walls m ⟨x, y⟩ (fun r => { r with treasure := true })
        (fun r => rfl) c d

theorem sym_of_eq (m m' : Maze) (hw : m'.width = m.width) (hh : m'.height = m.height)
    (hwall : ∀ (c : Coordinate) (d : Dir), m'.wallAt c d = m.wallAt c d)
    (h : wallSymmetric m) : wallSymmetric m' := by
  intro a e ha hb
  rw [containsC_congr m m' hw hh] at ha hb
  rw [hwall, hwall]
  exact h a e ha hb

theorem sym_emptyMaze (W H : Nat) : wallSymmetric (emptyMaze W H) := by
  intro c d _ _
  cases d <;> rfl

theorem createMaze_inv (W H : Nat) (s d : Coordinate) (rng order : List Nat)
    (hW : 0 < W) (hH : 0 < H) (hs : inGridB W H s = true) (hd : inGridB W H d = true) :
    MazeInv W H (createMaze W H s d rng order) := by
  simp only [createMaze]
  obtain ⟨w1, h1, wl1⟩ := walls_setStartPoint (emptyMaze W H) s.x s.y
  obtain ⟨w2, h2, wl2⟩ := walls_setTreasure ((emptyMaze W H).setStartPoint s.x s.y) d.x d.y
  have hsym2 : wallSymmetric (((emptyMaze W H).setStartPoint s.x s.y).setTreasure d.x d.y) := by
    refine sym_of_eq _ _ w2 h2 wl2 ?_
    refine sym_of_eq _ _ w1 h1 wl1 ?_
    exact sym_emptyMaze W H
  have hm3 := addBoundary_spec W H _ hW hH (by rw [w2, w1]; rfl) (by rw [h2, h1]; rfl) hsym2
  exact inv_buildMaze W H _ s d rng order hm3 hW hH hs hd

/-- C2: wall symmetry holds of the generated maze (any positive dimensions,
any start and treasure positions inside the grid, any random outcomes), and
every wall mutation primitive used during generation preserves it: addWall
(hence sealRoom and the boundary sealing, whose reciprocal sides face out of
the grid) unconditionally, and removeWallBetween for the grid-adjacent pairs
it is invoked on. -/
theorem C2_wall_symmetry (W H : Nat) (s d : Coordinate) (rng order : List Nat)
    (hW : 0 < W) (hH : 0 < H) (hs : inGridB W H s = true) (hd : inGridB W H d = true) :
    wallSymmetric (createMaze W H s d rng order) ∧
    (∀ (m : Maze) (c : Coordinate) (dir : Dir), wallSymmetric m →
      wallSymmetric (m.addWall c dir)) ∧
    (∀ (m : Maze) (c1 c2 : Coordinate), c1.adjacent c2 → wallSymmetric m →
      wallSymmetric (m.removeWallBetween c1 c2)) :=
  ⟨(createMaze_inv W H s d rng order hW hH hs hd).2.2.1,
   fun m c dir h => sym_addWall m c dir h,
   fun m c1 c2 hadj h => sym_removeWallBetween m c1 c2 hadj h⟩

theorem C2_witness :
    wallSymmetric (createMaze 2 2 ⟨0, 0⟩ ⟨1, 1⟩ [0, 0, 0, 0] [0]) ∧
    (∀ (m : Maze) (c : Coordinate) (dir : Dir), wallSymmetric m →
      wallSymmetric (m.addWall c dir)) ∧
    (∀ (m : Maze) (c1 c2 : Coordinate), c1.adjacent c2 → wallSymmetric m →
      wallSymmetric (m.removeWallBetween c1 c2)) :=
  C2_wall_symmetry 2 2 ⟨0, 0⟩ ⟨1, 1⟩ [0, 0, 0, 0] [0] (by decide) (by decide) (by decide)
    (by decide)

/-- C6: after maze creation (boundary sealing, then route paving and
flood-fill carving), for any positive dimensions, in-grid start and
treasure, and any random outcomes, every row-0 room has a North wall, every
last-row room a South wall, every column-0 room a West wall, and every
last-column room an East wall. -/
theorem C6_boundary_sealed (W H : Nat) (s d : Coordinate) (rng order : List Nat)
    (hW : 0 < W) (hH : 0 < H) (hs : inGridB W H s = true) (hd : inGridB W H d = true) :
    boundarySealed (createMaze W H s d rng order) :=
  (createMaze_inv W H s d rng order hW hH hs hd).2.2.2

theorem C6_witness : boundarySealed (createMaze 3 2 ⟨0, 0⟩ ⟨2, 1⟩ [0, 0, 0, 0] [0, 1]) :=
  C6_boundary_sealed 3 2 ⟨0, 0⟩ ⟨2, 1⟩ [0, 0, 0, 0] [0, 1] (by decide) (by decide) (by decide)
    (by decide)

/-- The client's explored memory: a map from coordinate to the survey last
observed there (Go map, embedded as an association list; lookup of an
absent key yields the zero survey exactly as a Go map read does). -/
def Explored : Type := List (Coordinate × Survey)

/-- Map lookup. -/
def lookupE (e : Explored) (c : Coordinate) : Option Survey :=
  (List.find? (fun p => p.1 = c) e).map (fun p => p.2)

/-- The survey the client code reads for a coordinate: the zero survey when
the coordinate was never recorded (Go map zero value). -/
def surveyAtE (e : Explored) (c : Coordinate) : Survey :=
  (lookupE e c).getD emptySurvey

/-- The client's allDirections slice, in source order N, S, E, W. -/
def allDirections : List Dir := [.N, .S, .E, .W]

/-- pickNeighbor: scan the drawn index order (rand.Perm of the four
directions, supplied as the idxs oracle); return the first direction whose
wall is absent in the current cell's recorded survey and whose neighbor is
not in explored memory. -/
def pickNeighbor (idxs : List Nat) (c : Coordinate) (e : Explored) :
    Option (Coordinate × Dir) :=
  match idxs with
  | [] => none
  | idx :: rest =>
    let dir := allDirections.getD idx .N
    let nb := c.neighbor dir
    if !(surveyAtE e c).hasWall dir && !(lookupE e nb).isSome then some (nb, dir)
    else pickNeighbor rest c e

/-- Whether some direction at c leads through an open recorded wall to an
unexplored coordinate (the order-independent content of pickNeighbor's
search). -/
def hasUnexploredOpening (e : Explored) (c : Coordinate) : Bool :=
  allDirections.any (fun d => !(surveyAtE e c).hasWall d && !(lookupE e (c.neighbor d)).isSome)

/-- The client's path stack (the source's path struct): a backing array and a logical size. -/
structure IPath : Type where
  coordinates : List Coordinate
  size : Nat
  deriving DecidableEq

/-- newPath. -/
def newPath : IPath := ⟨[], 0⟩

/-- path.push: append or overwrite at the size index, then grow the size. -/
def IPath.push (p : IPath) (c : Coordinate) : IPath :=
  if p.size ≥ p.coordinates.length then ⟨p.coordinates ++ [c], p.size + 1⟩
  else ⟨p.coordinates.set p.size c, p.size + 1⟩

/-- path.top: the entry below the size pointer, or an error on an empty
path. -/
def IPath.top? (p : IPath) : Option Coordinate :=
  if p.size = 0 then none else some (p.coordinates.getD (p.size - 1) ⟨0, 0⟩)

/-- The loop of path.backtrack: scan indices size-2, size-3, ..., 0 (the
argument k is one above the index under scrutiny) for an entry with an
unexplored opening; on a hit return it together with the shrunk size. -/
def backtrackLoop (coords : List Coordinate) (e : Explored) (perms : Nat → List Nat) :
    Nat → Option (Coordinate × Nat)
  | 0 => none
  | k + 1 =>
    let c := coords.getD k ⟨0, 0⟩
    match pickNeighbor (perms k) c e with
    | some _ => some (c, k + 1)
    | none => backtrackLoop coords e perms k

/-- path.backtrack: find the nearest non-top entry with an unexplored
opening, shrink the size so that it becomes the top, and return it; error
when no entry qualifies.  perms supplies the rand.Perm draw of each
pickNeighbor call, indexed by the scanned position. -/
def IPath.backtrack (p : IPath) (e : Explored) (perms : Nat → List Nat) :
    Option (Coordinate × IPath) :=
  match backtrackLoop p.coordinates e perms (p.size - 1) with
  | some (c, sz) => some (c, { p with size := sz })
  | none => none

/-- A direction at c that pickNeighbor would accept: no recorded wall and an
unexplored neighbor. -/
def goodDir (e : Explored) (c : Coordinate) (d : Dir) : Prop :=
  (surveyAtE e c).hasWall d = false ∧ lookupE e (c.neighbor d) = none

instance (e : Explored) (c : Coordinate) (d : Dir) : Decidable (goodDir e c d) := by
  unfold goodDir; infer_instance

theorem isSome_false_iff {A : Type} (o : Option A) : o.isSome = false ↔ o = none := by
  cases o <;> simp

theorem pickNeighbor_isSome_iff (idxs : List Nat) (c : Coordinate) (e : Explored) :
    (pickNeighbor idxs c e).isSome = true ↔
      ∃ idx ∈ idxs, goodDir e c (allDirections.getD idx .N) := by
  induction idxs with
  | nil => simp [pickNeighbor]
  | cons idx rest ih =>
    have hstep : pickNeighbor (idx :: rest) c e =
        if (!(surveyAtE e c).hasWall (allDirections.getD idx .N) &&
            !(lookupE e (c.neighbor (allDirections.getD idx .N))).isSome) = true
        then some (c.neighbor (allDirections.getD idx .N), allDirections.getD idx .N)
        else pickNeighbor rest c e := rfl
    rw [hstep]
    by_cases hgd : goodDir e c (allDirections.getD idx .N)
    · rw [if_pos (by rw [hgd.1, hgd.2]; rfl)]
      simp only [Option.isSome_some, true_iff]
      exact ⟨idx, List.mem_cons_self _ _, hgd⟩
    · rw [if_neg ?_]
      · rw [ih]
        constructor
        · rintro ⟨i, hi, h⟩; exact ⟨i, List.mem_cons_of_mem _ hi, h⟩
        · rintro ⟨i, hi, h⟩
          rcases List.mem_cons.mp hi with rfl | hi
          · exact absurd h hgd
          · exact ⟨i, hi, h⟩
      · intro hcond
        simp only [Bool.and_eq_true, Bool.not_eq_true'] at hcond
        exact hgd ⟨hcond.1, (isSome_false_iff _).mp hcond.2⟩

theorem hasUnexploredOpening_iff (e : Explored) (c : Coordinate) :
    hasUnexploredOpening e c = true ↔ ∃ d ∈ allDirections, goodDir e c d := by
  simp only [hasUnexploredOpening, List.any_eq_true, Bool.and_eq_true, Bool.not_eq_true',
    goodDir]
  constructor
  · rintro ⟨d, hd, h1, h2⟩
    exact ⟨d, hd, h1, (isSome_false_iff _).mp h2⟩
  · rintro ⟨d, hd, h1, h2⟩
    exact ⟨d, hd, h1, (isSome_false_iff _).mpr h2⟩

theorem pickNeighbor_isSome_eq (idxs : List Nat) (c : Coordinate) (e : Explored)
    (hperm : idxs.Perm (List.range 4)) :
    (pickNeighbor idxs c e).isSome = hasUnexploredOpening e c := by
  rcases ho : hasUnexploredOpening e c with _ | _
  · rcases hp : (pickNeighbor idxs c e).isSome with _ | _
    · rfl
    · exfalso
      rcases (pickNeighbor_isSome_iff idxs c e).mp hp with ⟨idx, hidx, hgd⟩
      have hlt : idx < 4 := by
        have := hperm.mem_iff.mp hidx
        simpa [List.mem_range] using this
      have hmem : allDirections.getD idx .N ∈ allDirections := by
        interval_cases idx <;> decide
      exact absurd ((hasUnexploredOpening_iff e c).mpr ⟨_, hmem, hgd⟩) (by simp [ho])
  · rcases (hasUnexploredOpening_iff e c).mp ho with ⟨d, hd, hgd⟩
    have hex : ∃ idx ∈ idxs, goodDir e c (allDirections.getD idx .N) := by
      fin_cases hd
      · exact ⟨0, hperm.mem_iff.mpr (by decide), hgd⟩
      · exact ⟨1, hperm.mem_iff.mpr (by decide), hgd⟩
      · exact ⟨2, hperm.mem_iff.mpr (by decide), hgd⟩
      · exact ⟨3, hperm.mem_iff.mpr (by decide), hgd⟩
    rw [(pickNeighbor_isSome_iff idxs c e).mpr hex]

theorem backtrackLoop_spec (coords : List Coordinate) (e : Explored) (perms : Nat → List Nat)
    (hperm : ∀ k, (perms k).Perm (List.range 4)) :
    ∀ k : Nat,
      (backtrackLoop coords e perms k = none ↔
        ∀ i, i < k → hasUnexploredOpening e (coords.getD i ⟨0, 0⟩) = false) ∧
      (∀ c sz, backtrackLoop coords e perms k = some (c, sz) →
        ∃ i, i < k ∧ sz = i + 1 ∧ c = coords.getD i ⟨0, 0⟩ ∧
          hasUnexploredOpening e c = true ∧
          ∀ j, i < j → j < k → hasUnexploredOpening e (coords.getD j ⟨0, 0⟩) = false) := by
  intro k
  induction k with
  | zero =>
    constructor
    · simp [backtrackLoop]
    · intro c sz h; simp [backtrackLoop] at h
  | succ k ih =>
    have hstep : backtrackLoop coords e perms (k + 1) =
        match pickNeighbor (perms k) (coords.getD k ⟨0, 0⟩) e with
        | some _ => some (coords.getD k ⟨0, 0⟩, k + 1)
        | none => backtrackLoop coords e perms k := rfl
    rcases hpk : pickNeighbor (perms k) (coords.getD k ⟨0, 0⟩) e with _ | v
    · have hok : hasUnexploredOpening e (coords.getD k ⟨0, 0⟩) = false := by
        rw [← pickNeighbor_isSome_eq (perms k) _ e (hperm k), hpk]; rfl
      rw [hstep, hpk]
      constructor
      · rw [ih.1]
        constructor
        · intro h i hik
          rcases Nat.lt_succ_iff_lt_or_eq.mp hik with h' | rfl
          · exact h i h'
          · exact hok
        · intro h i hik
          exact h i (Nat.lt_succ_of_lt hik)
      · intro c sz h
        rcases ih.2 c sz h with ⟨i, hik, hsz, hc, hop, hmax⟩
        refine ⟨i, Nat.lt_succ_of_lt hik, hsz, hc, hop, ?_⟩
        intro j hij hjk
        rcases Nat.lt_succ_iff_lt_or_eq.mp hjk with h' | rfl
        · exact hmax j hij h'
        · exact hok
    · have hok : hasUnexploredOpening e (coords.getD k ⟨0, 0⟩) = true := by
        rw [← pickNeighbor_isSome_eq (perms k) _ e (hperm k), hpk]; rfl
      rw [hstep, hpk]
      constructor
      · constructor
        · intro h; exact absurd h (by simp)
        · intro h
          exact absurd (h k (Nat.lt_succ_self k)) (by rw [hok]; decide)
      · intro c sz h
        simp only [Option.some.injEq, Prod.mk.injEq] at h
        obtain ⟨h1, h2⟩ := h
        subst h1; subst h2
        exact ⟨k, Nat.lt_succ_self k, rfl, rfl, hok, fun j hkj hjk => absurd hjk (by omega)⟩

/-- C7: path.backtrack scans the stack below the top from the nearest entry
downward; when some entry has a direction through an open recorded wall to an
unexplored coordinate it returns the nearest such entry, truncating the
stack so that entry becomes the new top (the backing coordinates, and the
explored memory it only reads, are untouched); it errors exactly when no
stack entry has such an opening.  The hypothesis htop states the claim's
premise that the current top has no unexplored opening, and hperm that each
consulted rand.Perm draw is a permutation of the four direction indices. -/
theorem C7_backtrack_spec (p : IPath) (e : Explored) (perms : Nat → List Nat)
    (hperm : ∀ k, (perms k).Perm (List.range 4))
    (htop : hasUnexploredOpening e (p.coordinates.getD (p.size - 1) ⟨0, 0⟩) = false) :
    (∀ c p', p.backtrack e perms = some (c, p') →
        p'.coordinates = p.coordinates ∧ p'.top? = some c ∧
        ∃ i, i + 1 < p.size ∧ p'.size = i + 1 ∧ c = p.coordinates.getD i ⟨0, 0⟩ ∧
          hasUnexploredOpening e c = true ∧
          ∀ j, i < j → j < p.size →
            hasUnexploredOpening e (p.coordinates.getD j ⟨0, 0⟩) = false) ∧
    (p.backtrack e perms = none ↔
      ∀ i, i < p.size → hasUnexploredOpening e (p.coordinates.getD i ⟨0, 0⟩) = false) := by
  have spec := backtrackLoop_spec p.coordinates e perms hperm (p.size - 1)
  rcases hbl : backtrackLoop p.coordinates e perms (p.size - 1) with _ | ⟨c0, sz0⟩
  · have hbt : p.backtrack e perms = none := by
      simp [IPath.backtrack, hbl]
    constructor
    · intro c p' h
      rw [hbt] at h
      exact absurd h (by simp)
    · rw [hbt]
      constructor
      · intro _ i hi
        by_cases hi' : i < p.size - 1
        · exact spec.1.mp hbl i hi'
        · have : i = p.size - 1 := by omega
          subst this
          exact htop
      · intro _; rfl
  · rcases spec.2 c0 sz0 hbl with ⟨i, hik, hsz, hc, hop, hmax⟩
    have hbt : p.backtrack e perms = some (c0, { p with size := sz0 }) := by
      simp [IPath.backtrack, hbl]
    constructor
    · intro c p' h
      rw [hbt] at h
      simp only [Option.some.injEq, Prod.mk.injEq] at h
      obtain ⟨h1, h2⟩ := h
      subst h1; subst h2
      refine ⟨rfl, ?_, i, by omega, hsz, hc, hop, ?_⟩
      · simp only [IPath.top?, hsz]
        rw [if_neg (by omega)]
        simp [hc]
      · intro j hij hjp
        by_cases hj' : j < p.size - 1
        · exact hmax j hij hj'
        · have : j = p.size - 1 := by omega
          subst this
          exact htop
    · rw [hbt]
      constructor
      · intro h; exact absurd h (by simp)
      · intro hall
        exact absurd hop (by rw [hc, hall i (by omega)]; decide)

/-- The explored memory of the C7 witness: the path top (0,1) was recorded
fully walled, the entry (0,0) below it open on all sides with its north
neighbor unexplored. -/
def e7 : Explored := [(⟨0, 0⟩, emptySurvey), (⟨0, 1⟩, ⟨true, true, true, true⟩)]

theorem perm0123 : ([0, 1, 2, 3] : List Nat).Perm (List.range 4) := by decide

theorem C7_witness :
    hasUnexploredOpening e7 (([⟨0, 0⟩, ⟨0, 1⟩] : List Coordinate).getD (2 - 1) ⟨0, 0⟩) = false ∧
    ∃ i, i + 1 < 2 ∧ (1 : Nat) = i + 1 ∧
      (⟨0, 0⟩ : Coordinate) = ([⟨0, 0⟩, ⟨0, 1⟩] : List Coordinate).getD i ⟨0, 0⟩ ∧
      hasUnexploredOpening e7 ⟨0, 0⟩ = true ∧
      ∀ j, i < j → j < 2 →
        hasUnexploredOpening e7 (([⟨0, 0⟩, ⟨0, 1⟩] : List Coordinate).getD j ⟨0, 0⟩) = false :=
  ⟨by decide,
    ((C7_backtrack_spec ⟨[⟨0, 0⟩, ⟨0, 1⟩], 2⟩ e7 (fun _ => [0, 1, 2, 3])
        (fun _ => perm0123) (by decide)).1 ⟨0, 0⟩ ⟨[⟨0, 0⟩, ⟨0, 1⟩], 1⟩ (by decide)).2.2⟩

/-- The from map of goback's breadth-first search: coordinate to the
direction leading back toward dst; the seed dst carries none (Go stores the
sentinel 0 there, which is not a direction). -/
def lookupF (f : List (Coordinate × Option Dir)) (c : Coordinate) : Option (Option Dir) :=
  (List.find? (fun p => p.1 = c) f).map (fun p => p.2)

/-- The state of goback's search: the queue prefix written so far (Go's
fixed array up to size), the from map and the found flag. -/
structure BfsSt : Type where
  queue : List Coordinate
  frm : List (Coordinate × Option Dir)
  found : Bool

/-- The inner direction loop of goback at frontier cell c: skip walled
directions, unexplored neighbors and already-searched neighbors; otherwise
write the neighbor at index size of the queue array with the reverse
direction recorded, and stop the scan (Go's break) with found set when the
neighbor is src.  The queue is Go's fixed array make of length e.length:
a write with size at capacity is the index-out-of-range panic, modelled as
none. -/
def expandDirs (e : Explored) (src : Coordinate) (c : Coordinate) :
    List Dir → BfsSt → Option BfsSt
  | [], st => some st
  | d :: rest, st =>
    if (surveyAtE e c).hasWall d then expandDirs e src c rest st
    else
      let nb := c.neighbor d
      if (lookupE e nb).isSome = false then expandDirs e src c rest st
      else if (lookupF st.frm nb).isSome then expandDirs e src c rest st
      else if st.queue.length < e.length then
        let st' : BfsSt := ⟨st.queue ++ [nb], (nb, some d.rev) :: st.frm, st.found⟩
        if nb = src then some { st' with found := true }
        else expandDirs e src c rest st'
      else none

/-- The outer loop of goback: while i < size and not found, expand the cell
at index i over allDirections, propagating a queue-overflow panic.  Fuel
makes the recursion structural; the loop provably exits through its own
condition under the fuel used below. -/
def bfsLoop (e : Explored) (src : Coordinate) : Nat → Nat → BfsSt → Option BfsSt
  | 0, _, st => some st
  | fuel + 1, i, st =>
    if i < st.queue.length ∧ st.found = false then
      match expandDirs e src (st.queue.getD i ⟨0, 0⟩) allDirections st with
      | none => none
      | some st2 => bfsLoop e src fuel (i + 1) st2
    else some st

/-- The walk of goback's return loop: from c, while c differs from dst,
move in the recorded direction.  Returns the list of issued moves (Go
issues Move(d2s[from[c]]) and counts them). -/
def walk (frm : List (Coordinate × Option Dir)) (dst : Coordinate) :
    Nat → Coordinate → Option (List Dir)
  | 0, _ => none
  | fuel + 1, c =>
    if c = dst then some []
    else
      match lookupF frm c with
      | some (some d) => (walk frm dst fuel (c.neighbor d)).map (fun mv => d :: mv)
      | _ => none

/-- goback: breadth-first search seeded at dst over the explored cells,
then walk from src along the recorded directions.  none models the Go
panics: the seed write queue[0] = dst into a zero-length array when
explored memory is empty, a queue write past the array's length e.length
during the search, and the explicit panic when the search does not reach
src. -/
def goback (e : Explored) (src dst : Coordinate) : Option (List Dir) :=
  if e.length = 0 then none
  else
    match bfsLoop e src (e.length + 2) 0 ⟨[dst], [(dst, none)], false⟩ with
    | none => none
    | some st => if st.found = false then none else walk st.frm dst (e.length + 2) src

/-- One admissible expansion step of the search, from a frontier cell to a
neighbor: no wall recorded at the frontier cell toward it and the neighbor
present in explored memory. -/
def bfsStep (e : Explored) (c nb : Coordinate) : Prop :=
  ∃ d : Dir, (surveyAtE e c).hasWall d = false ∧ nb = c.neighbor d ∧ (lookupE e nb).isSome = true

/-- C8 counterexample: with a single explored cell serving as both src and
dst, the pair is trivially connected through explored memory (zero steps),
yet goback aborts: the search tests nb = src only on newly enqueued cells
and the seed dst is never re-enqueued, so src = dst is never found. -/
theorem C8_counterexample_goback_panics_on_trivial :
    goback [(⟨0, 0⟩, ⟨true, true, true, true⟩)] ⟨0, 0⟩ ⟨0, 0⟩ = none ∧
    Relation.ReflTransGen (bfsStep [(⟨0, 0⟩, ⟨true, true, true, true⟩)]) ⟨0, 0⟩ ⟨0, 0⟩ ∧
    (lookupE [(⟨0, 0⟩, ⟨true, true, true, true⟩)] ⟨0, 0⟩).isSome = true :=
  ⟨by decide, Relation.ReflTransGen.refl, by decide⟩

theorem lookupF_cons (a : Coordinate) (v : Option Dir) (f : List (Coordinate × Option Dir))
    (c : Coordinate) :
    lookupF ((a, v) :: f) c = if c = a then some v else lookupF f c := by
  unfold lookupF
  by_cases h : a = c
  · rw [List.find?_cons_of_pos _ (by simp [h]), if_pos h.symm]; rfl
  · rw [List.find?_cons_of_neg _ (by simp [h]), if_neg (fun hc => h hc.symm)]

theorem getD_append_length (l : List Coordinate) (a d : Coordinate) :
    (l ++ [a]).getD l.length d = a := by
  induction l with
  | nil => rfl
  | cons x xs ih => simp [ih]

theorem mem_iff_getD (l : List Coordinate) (c d : Coordinate) :
    c ∈ l ↔ ∃ k, k < l.length ∧ l.getD k d = c := by
  constructor
  · intro h
    rcases List.mem_iff_getElem.mp h with ⟨i, hi, hgi⟩
    exact ⟨i, hi, by rw [List.getD_eq_getElem l d hi]; exact hgi⟩
  · rintro ⟨k, hk, rfl⟩
    rw [List.getD_eq_getElem l d hk]
    exact List.getElem_mem hk

theorem lookupE_isSome_mem (e : Explored) (q : Coordinate)
    (h : (lookupE e q).isSome = true) : q ∈ e.map Prod.fst := by
  unfold lookupE at h
  rcases hf : List.find? (fun p => p.1 = q) e with _ | p
  · rw [hf] at h; simp at h
  · have hp := List.find?_some hf
    have hmem := List.mem_of_find?_eq_some hf
    have hq : p.1 = q := by simpa using hp
    subst hq
    exact List.mem_map.mpr ⟨p, hmem, rfl⟩

theorem scanl_head (f : Coordinate → Dir → Coordinate) (b : Coordinate) (l : List Dir) :
    (List.scanl f b l).head? = some b := by
  cases l <;> rfl

theorem dir_mem_allDirections (d : Dir) : d ∈ allDirections := by
  cases d <;> decide

/-- One admissible expansion step via an explicit direction. -/
def goodStep (e : Explored) (c : Coordinate) (d : Dir) (nb : Coordinate) : Prop :=
  (surveyAtE e c).hasWall d = false ∧ nb = c.neighbor d ∧ (lookupE e nb).isSome = true

theorem bfsStep_iff (e : Explored) (c nb : Coordinate) :
    bfsStep e c nb ↔ ∃ d, goodStep e c d nb := Iff.rfl

/-- The search-state invariant of goback's loop: the queue prefix is
duplicate-free, holds dst and otherwise only explored cells, matches the
from map's domain, every non-dst queue entry carries a recorded direction
leading to an earlier queue entry by an admissible step in reverse, src is
enqueued exactly when found is set (src differing from dst), and dst is
enqueued. -/
def BfsInv (e : Explored) (src dst : Coordinate) (st : BfsSt) : Prop :=
  st.queue.Nodup ∧
  (∀ q ∈ st.queue, q = dst ∨ (lookupE e q).isSome = true) ∧
  (∀ c, (lookupF st.frm c).isSome = true ↔ c ∈ st.queue) ∧
  (∀ k, k < st.queue.length → st.queue.getD k ⟨0, 0⟩ = dst ∨
    ∃ d j, j < k ∧
      lookupF st.frm (st.queue.getD k ⟨0, 0⟩) = some (some d) ∧
      (st.queue.getD k ⟨0, 0⟩).neighbor d = st.queue.getD j ⟨0, 0⟩ ∧
      bfsStep e (st.queue.getD j ⟨0, 0⟩) (st.queue.getD k ⟨0, 0⟩)) ∧
  (src ∈ st.queue → st.found = true) ∧
  (st.found = true → src ∈ st.queue) ∧
  dst ∈ st.queue

theorem queue_length_le (e : Explored) (src dst : Coordinate) (st : BfsSt)
    (hinv : BfsInv e src dst st) : st.queue.length ≤ e.length + 1 := by
  have hsub : st.queue ⊆ dst :: e.map Prod.fst := by
    intro q hq
    rcases hinv.2.1 q hq with rfl | h
    · exact List.mem_cons_self _ _
    · exact List.mem_cons_of_mem _ (lookupE_isSome_mem e q h)
  have := (hinv.1.subperm hsub).length_le
  simpa using this

theorem expandDirs_spec (e : Explored) (src dst : Coordinate)
    (hdst : (lookupE e dst).isSome = true) (c : Coordinate) :
    ∀ dirs st, BfsInv e src dst st →
      (∃ i, i < st.queue.length ∧ st.queue.getD i ⟨0, 0⟩ = c) →
      ∃ st2, expandDirs e src c dirs st = some st2 ∧
        BfsInv e src dst st2 ∧
        (∃ ext, st2.queue = st.queue ++ ext) ∧
        (st.found = true → st2.found = true) ∧
        (st2.found = false →
          ∀ d ∈ dirs, ∀ nb, goodStep e c d nb → nb ∈ st2.queue) := by
  intro dirs
  induction dirs with
  | nil =>
    intro st hinv _
    refine ⟨st, rfl, hinv, ⟨[], by simp⟩, fun h => h, ?_⟩
    intro _ d hd
    exact absurd hd (by simp)
  | cons d rest ih =>
    intro st hinv hc
    by_cases hw : (surveyAtE e c).hasWall d = true
    · have hstep : expandDirs e src c (d :: rest) st = expandDirs e src c rest st := by
        simp [expandDirs, hw]
      obtain ⟨st2, heq, h1, h2, h3, h4⟩ := ih st hinv hc
      refine ⟨st2, hstep.trans heq, h1, h2, h3, ?_⟩
      intro hf d' hd' nb hgs
      rcases List.mem_cons.mp hd' with heq' | hd'
      · rw [heq'] at hgs
        exact absurd hgs.1 (by simp [hw])
      · exact h4 hf d' hd' nb hgs
    · have hw' : (surveyAtE e c).hasWall d = false := by
        rcases h : (surveyAtE e c).hasWall d with _ | _
        · rfl
        · exact absurd h hw
      by_cases hex : (lookupE e (c.neighbor d)).isSome = true
      · by_cases hsrch : (lookupF st.frm (c.neighbor d)).isSome = true
        · have hstep : expandDirs e src c (d :: rest) st = expandDirs e src c rest st := by
            simp [expandDirs, hw', hex, hsrch]
          obtain ⟨st2, heq, h1, h2, h3, h4⟩ := ih st hinv hc
          refine ⟨st2, hstep.trans heq, h1, h2, h3, ?_⟩
          intro hf d' hd' nb hgs
          rcases List.mem_cons.mp hd' with heq' | hd'
          · rw [heq'] at hgs
            obtain ⟨ext, hext⟩ := h2
            rw [hext]
            refine List.mem_append_left _ ?_
            rw [hgs.2.1]
            exact (hinv.2.2.1 (c.neighbor d)).mp hsrch
          · exact h4 hf d' hd' nb hgs
        · have hsrch' : (lookupF st.frm (c.neighbor d)).isSome = false := by
            rcases h : (lookupF st.frm (c.neighbor d)).isSome with _ | _
            · rfl
            · exact absurd h hsrch
          have hnbq : c.neighbor d ∉ st.queue := by
            intro hmem
            exact hsrch ((hinv.2.2.1 (c.neighbor d)).mpr hmem)
          obtain ⟨i, hi, hgi⟩ := hc
          obtain ⟨hA, hB, hC, hE, hF, hF', hG⟩ := hinv
          have hcap : st.queue.length < e.length := by
            have hsub : st.queue ++ [c.neighbor d] ⊆ e.map Prod.fst := by
              intro q hq
              rcases List.mem_append.mp hq with hq | hq
              · rcases hB q hq with hqd | h
                · rw [hqd]
                  exact lookupE_isSome_mem e dst hdst
                · exact lookupE_isSome_mem e q h
              · have hqe : q = c.neighbor d := by simpa using hq
                rw [hqe]
                exact lookupE_isSome_mem e _ hex
            have hnd : (st.queue ++ [c.neighbor d]).Nodup := by
              simp [List.nodup_append, hA, hnbq]
            have hlen := (hnd.subperm hsub).length_le
            simp only [List.length_append, List.length_singleton, List.length_map] at hlen
            omega
          have hcore : ∀ b : Bool,
              (src ∈ st.queue ++ [c.neighbor d] → b = true) →
              (b = true → src ∈ st.queue ++ [c.neighbor d]) →
              BfsInv e src dst
                ⟨st.queue ++ [c.neighbor d], (c.neighbor d, some d.rev) :: st.frm, b⟩ := by
            intro b hb1 hb2
            refine ⟨?_, ?_, ?_, ?_, hb1, hb2, List.mem_append_left _ hG⟩
            · simp [List.nodup_append, hA, hnbq]
            · intro q hq
              rcases List.mem_append.mp hq with hq | hq
              · exact hB q hq
              · right
                have hqe : q = c.neighbor d := by simpa using hq
                rw [hqe]
                exact hex
            · intro x
              rw [lookupF_cons]
              by_cases hx : x = c.neighbor d
              · rw [if_pos hx]
                simp [hx]
              · rw [if_neg hx, hC x]
                constructor
                · intro h
                  exact List.mem_append_left _ h
                · intro h
                  rcases List.mem_append.mp h with h | h
                  · exact h
                  · exact absurd (by simpa using h) hx
            · intro k hk
              rw [List.length_append, List.length_singleton] at hk
              by_cases hklt : k < st.queue.length
              · have hgd : (st.queue ++ [c.neighbor d]).getD k ⟨0, 0⟩ = st.queue.getD k ⟨0, 0⟩ :=
                  List.getD_append _ _ _ _ hklt
                rw [hgd]
                rcases hE k hklt with hdstk | ⟨dd, j, hjk, hlk, hnb, hst⟩
                · exact Or.inl hdstk
                · right
                  have hjlt : j < st.queue.length := lt_trans hjk hklt
                  have hgdj : (st.queue ++ [c.neighbor d]).getD j ⟨0, 0⟩ = st.queue.getD j ⟨0, 0⟩ :=
                    List.getD_append _ _ _ _ hjlt
                  refine ⟨dd, j, hjk, ?_, by rw [hgdj]; exact hnb, by rw [hgdj]; exact hst⟩
                  rw [lookupF_cons, if_neg ?_]
                  · exact hlk
                  · intro hcontra
                    have hmem : st.queue.getD k ⟨0, 0⟩ ∈ st.queue :=
                      (mem_iff_getD _ _ _).mpr ⟨k, hklt, rfl⟩
                    rw [hcontra] at hmem
                    exact hnbq hmem
              · have hkeq : k = st.queue.length := by omega
                rw [hkeq]
                right
                have hgd : (st.queue ++ [c.neighbor d]).getD st.queue.length ⟨0, 0⟩ = c.neighbor d :=
                  getD_append_length _ _ _
                rw [hgd]
                have hgdi : (st.queue ++ [c.neighbor d]).getD i ⟨0, 0⟩ = st.queue.getD i ⟨0, 0⟩ :=
                  List.getD_append _ _ _ _ hi
                refine ⟨d.rev, i, hi, ?_, ?_, ?_⟩
                · rw [lookupF_cons, if_pos rfl]
                · rw [hgdi, hgi, neighbor_rev]
                · rw [hgdi, hgi]
                  exact ⟨d, hw', rfl, hex⟩
          by_cases hns : c.neighbor d = src
          · subst hns
            have hstep : expandDirs e (c.neighbor d) c (d :: rest) st =
                some ⟨st.queue ++ [c.neighbor d], (c.neighbor d, some d.rev) :: st.frm, true⟩ := by
              simp [expandDirs, hw', hex, hsrch', hcap]
            refine ⟨_, hstep, hcore true (fun _ => rfl) ?_, ⟨[c.neighbor d], rfl⟩,
              fun _ => rfl, ?_⟩
            · intro _
              exact List.mem_append_right _ (by simp)
            · intro hf
              exact absurd hf (by simp)
          · have hstep : expandDirs e src c (d :: rest) st =
                expandDirs e src c rest
                  ⟨st.queue ++ [c.neighbor d], (c.neighbor d, some d.rev) :: st.frm, st.found⟩ := by
              simp [expandDirs, hw', hex, hsrch', hcap, hns]
            have hinv2 : BfsInv e src dst
                ⟨st.queue ++ [c.neighbor d], (c.neighbor d, some d.rev) :: st.frm, st.found⟩ := by
              refine hcore st.found ?_ ?_
              · intro h
                rcases List.mem_append.mp h with h | h
                · exact hF h
                · have hsq : src = c.neighbor d := by simpa using h
                  exact absurd hsq.symm hns
              · intro h
                exact List.mem_append_left _ (hF' h)
            have hc2 : ∃ j, j < (st.queue ++ [c.neighbor d]).length ∧
                (st.queue ++ [c.neighbor d]).getD j ⟨0, 0⟩ = c := by
              refine ⟨i, ?_, ?_⟩
              · simp only [List.length_append, List.length_singleton]
                omega
              · rw [List.getD_append _ _ _ _ hi]
                exact hgi
            obtain ⟨st2, heq, h1, h2, h3, h4⟩ := ih _ hinv2 hc2
            refine ⟨st2, hstep.trans heq, h1, ?_, fun h => h3 h, ?_⟩
            · obtain ⟨ext, hext⟩ := h2
              exact ⟨[c.neighbor d] ++ ext, by rw [hext]; simp⟩
            · intro hf d' hd' nb hgs
              rcases List.mem_cons.mp hd' with heq' | hd'
              · rw [heq'] at hgs
                obtain ⟨ext, hext⟩ := h2
                rw [hext, hgs.2.1]
                exact List.mem_append_left _ (List.mem_append_right _ (by simp))
              · exact h4 hf d' hd' nb hgs
      · have hex' : (lookupE e (c.neighbor d)).isSome = false := by
          rcases h : (lookupE e (c.neighbor d)).isSome with _ | _
          · rfl
          · exact absurd h hex
        have hstep : expandDirs e src c (d :: rest) st = expandDirs e src c rest st := by
          simp [expandDirs, hw', hex']
        obtain ⟨st2, heq, h1, h2, h3, h4⟩ := ih st hinv hc
        refine ⟨st2, hstep.trans heq, h1, h2, h3, ?_⟩
        intro hf d' hd' nb hgs
        rcases List.mem_cons.mp hd' with heq' | hd'
        · rw [heq'] at hgs
          exfalso
          rw [hgs.2.1] at hgs
          exact absurd hgs.2.2 (by simp [hex'])
        · exact h4 hf d' hd' nb hgs

/-- Expansion closure of the queue prefix below index i. -/
def Processed (e : Explored) (st : BfsSt) (i : Nat) : Prop :=
  ∀ j, j < i → j < st.queue.length →
    ∀ nb, bfsStep e (st.queue.getD j ⟨0, 0⟩) nb → nb ∈ st.queue

theorem bfsLoop_spec (e : Explored) (src dst : Coordinate)
    (hdst : (lookupE e dst).isSome = true) :
    ∀ fuel i st, BfsInv e src dst st →
      (st.found = false → Processed e st i) →
      e.length + 2 ≤ fuel + i →
      ∃ stf, bfsLoop e src fuel i st = some stf ∧
        BfsInv e src dst stf ∧
        (stf.found = true ∨ Processed e stf stf.queue.length) := by
  intro fuel
  induction fuel with
  | zero =>
    intro i st hinv hproc hfl
    refine ⟨st, rfl, hinv, ?_⟩
    rcases hf : st.found with _ | _
    · right
      have hlen : st.queue.length ≤ e.length + 1 := queue_length_le e src dst st hinv
      intro j hj1 hj2
      exact hproc hf j (by omega) hj2
    · left
      rfl
  | succ fuel ihf =>
    intro i st hinv hproc hfl
    by_cases hcond : i < st.queue.length ∧ st.found = false
    · obtain ⟨st2, heq, h1, h2, h3, h4⟩ :=
        expandDirs_spec e src dst hdst (st.queue.getD i ⟨0, 0⟩) allDirections st hinv
          ⟨i, hcond.1, rfl⟩
      have hstep : bfsLoop e src (fuel + 1) i st = bfsLoop e src fuel (i + 1) st2 := by
        simp only [bfsLoop]
        rw [if_pos hcond, heq]
      obtain ⟨ext, hext⟩ := h2
      have hproc2 : st2.found = false → Processed e st2 (i + 1) := by
        intro hf2 j hj1 hj2 nb hstep2
        rcases Nat.lt_succ_iff_lt_or_eq.mp hj1 with hji | heqj
        · have hjq : j < st.queue.length := lt_trans hji hcond.1
          have hgd : st2.queue.getD j ⟨0, 0⟩ = st.queue.getD j ⟨0, 0⟩ := by
            rw [hext]
            exact List.getD_append _ _ _ _ hjq
          rw [hgd] at hstep2
          have hmem := hproc hcond.2 j hji hjq nb hstep2
          rw [hext]
          exact List.mem_append_left _ hmem
        · have hgd : st2.queue.getD j ⟨0, 0⟩ = st.queue.getD i ⟨0, 0⟩ := by
            rw [heqj, hext]
            exact List.getD_append _ _ _ _ hcond.1
          rw [hgd] at hstep2
          rcases hstep2 with ⟨d, hgs⟩
          exact h4 hf2 d (dir_mem_allDirections d) nb hgs
      obtain ⟨stf, hbf, hif, hrf⟩ := ihf (i + 1) st2 h1 hproc2 (by omega)
      exact ⟨stf, hstep.trans hbf, hif, hrf⟩
    · refine ⟨st, ?_, hinv, ?_⟩
      · simp only [bfsLoop]
        rw [if_neg hcond]
      · rcases hf : st.found with _ | _
        · right
          have hni : ¬ i < st.queue.length := by
            intro h
            exact hcond ⟨h, hf⟩
          intro j hj1 hj2
          exact hproc hf j (by omega) hj2
        · left
          rfl

theorem reach_mem_queue (e : Explored) (src dst : Coordinate) (st : BfsSt)
    (hinv : BfsInv e src dst st)
    (hproc : Processed e st st.queue.length) :
    ∀ x, Relation.ReflTransGen (bfsStep e) dst x → x ∈ st.queue := by
  intro x hx
  induction hx with
  | refl => exact hinv.2.2.2.2.2.2
  | tail hab hbc ih =>
    rcases (mem_iff_getD _ _ ⟨0, 0⟩).mp ih with ⟨k, hk, hgd⟩
    refine hproc k hk hk _ ?_
    rw [hgd]
    exact hbc

theorem walk_sound (e : Explored) (src dst : Coordinate) (st : BfsSt)
    (hinv : BfsInv e src dst st) :
    ∀ n k, k < st.queue.length → k ≤ n →
      ∀ fuel, k < fuel →
      ∃ mv, walk st.frm dst fuel (st.queue.getD k ⟨0, 0⟩) = some mv ∧
        mv.foldl (fun c d => c.neighbor d) (st.queue.getD k ⟨0, 0⟩) = dst ∧
        List.Chain' (fun a b => bfsStep e b a)
          (mv.scanl (fun c d => c.neighbor d) (st.queue.getD k ⟨0, 0⟩)) ∧
        (st.queue.getD k ⟨0, 0⟩ ≠ dst → mv ≠ []) := by
  intro n
  induction n with
  | zero =>
    intro k hk hkn fuel hfuel
    have hk0 : k = 0 := Nat.le_zero.mp hkn
    obtain ⟨f, rfl⟩ : ∃ f, fuel = f + 1 := ⟨fuel - 1, by omega⟩
    rcases hinv.2.2.2.1 k hk with hdst | ⟨d, j, hjk, _, _, _⟩
    · refine ⟨[], ?_, hdst, ?_, fun h => absurd hdst h⟩
      · simp only [walk]
        rw [if_pos hdst]
      · simp [List.scanl]
    · exact absurd hjk (by omega)
  | succ n ihn =>
    intro k hk hkn fuel hfuel
    obtain ⟨f, rfl⟩ : ∃ f, fuel = f + 1 := ⟨fuel - 1, by omega⟩
    rcases hinv.2.2.2.1 k hk with hdst | ⟨d, j, hjk, hlk, hnb, hstep⟩
    · refine ⟨[], ?_, hdst, ?_, fun h => absurd hdst h⟩
      · simp only [walk]
        rw [if_pos hdst]
      · simp [List.scanl]
    · have hjlen : j < st.queue.length := lt_trans hjk hk
      have hjn : j ≤ n := by omega
      have hjf : j < f := by omega
      obtain ⟨mv', hw', hf', hc', _⟩ := ihn j hjlen hjn f hjf
      by_cases hd : st.queue.getD k ⟨0, 0⟩ = dst
      · refine ⟨[], ?_, hd, ?_, fun h => absurd hd h⟩
        · simp only [walk]
          rw [if_pos hd]
        · simp [List.scanl]
      · refine ⟨d :: mv', ?_, ?_, ?_, fun _ => by simp⟩
        · have hwalk : walk st.frm dst (f + 1) (st.queue.getD k ⟨0, 0⟩) =
              match lookupF st.frm (st.queue.getD k ⟨0, 0⟩) with
              | some (some dd) =>
                (walk st.frm dst f ((st.queue.getD k ⟨0, 0⟩).neighbor dd)).map
                  (fun mv => dd :: mv)
              | _ => none := by
            simp only [walk]
            rw [if_neg hd]
          rw [hwalk, hlk]
          show (walk st.frm dst f ((st.queue.getD k ⟨0, 0⟩).neighbor d)).map
              (fun mv => d :: mv) = some (d :: mv')
          rw [hnb, hw']
          rfl
        · simp only [List.foldl_cons]
          rw [hnb]
          exact hf'
        · simp only [List.scanl]
          rw [List.chain'_cons']
          constructor
          · intro h hh
            rw [scanl_head] at hh
            have hhe : (st.queue.getD k ⟨0, 0⟩).neighbor d = h := by simpa using hh
            rw [← hhe, hnb]
            exact hstep
          · rw [hnb]
            exact hc'

/-- C8 (amended): for src distinct from dst, dst recorded in explored
memory, and src connected to dst through the recorded cells (the
reflexive-transitive closure of the search's admissible expansion step,
seeded at dst), goback succeeds: the breadth-first search never overflows
its queue array and sets found, and the walk from src along the recorded
reverse directions returns a nonempty move list — one physical move per
step — whose cells form a chain of admissible steps ending at dst.  The
counterexample theorem shows the src = dst restriction is necessary;
the dst-recorded hypothesis rules out the queue-overflow panic, since the
queue then only ever holds distinct keys of explored memory. -/
theorem C8_goback_amended (e : Explored) (src dst : Coordinate)
    (hne : src ≠ dst)
    (hdst : (lookupE e dst).isSome = true)
    (hconn : Relation.ReflTransGen (bfsStep e) dst src) :
    ∃ mv : List Dir,
      goback e src dst = some mv ∧ mv ≠ [] ∧
      mv.foldl (fun c d => c.neighbor d) src = dst ∧
      List.Chain' (fun a b => bfsStep e b a) (mv.scanl (fun c d => c.neighbor d) src) := by
  have hinv0 : BfsInv e src dst ⟨[dst], [(dst, none)], false⟩ := by
    refine ⟨by simp, ?_, ?_, ?_, ?_, ?_, by simp⟩
    · intro q hq
      left
      simpa using hq
    · intro c
      rw [lookupF_cons]
      by_cases hx : c = dst
      · rw [if_pos hx]
        simp [hx]
      · rw [if_neg hx]
        simp [lookupF, hx]
    · intro k hk
      left
      have hk0 : k = 0 := by simpa using hk
      rw [hk0]
      rfl
    · intro h
      exact absurd (by simpa using h) hne
    · intro h
      exact absurd h (by simp)
  obtain ⟨st, hloop, hinvf, hres⟩ := bfsLoop_spec e src dst hdst (e.length + 2) 0 _ hinv0
    (fun _ => by intro j hj1; exact absurd hj1 (by omega)) (by omega)
  have hfound : st.found = true := by
    rcases hres with h | hproc
    · exact h
    · have hsrc : src ∈ st.queue := reach_mem_queue e src dst st hinvf hproc src hconn
      exact hinvf.2.2.2.2.1 hsrc
  have hsrcq : src ∈ st.queue := hinvf.2.2.2.2.2.1 hfound
  rcases (mem_iff_getD st.queue src ⟨0, 0⟩).mp hsrcq with ⟨k, hk, hgd⟩
  have hklen : st.queue.length ≤ e.length + 1 := queue_length_le e src dst st hinvf
  obtain ⟨mv, hwk, hfold, hchain, hmne⟩ :=
    walk_sound e src dst st hinvf k k hk (le_refl k) (e.length + 2) (by omega)
  rw [hgd] at hwk hfold hchain hmne
  refine ⟨mv, ?_, hmne hne, hfold, hchain⟩
  have hlen0 : ¬ e.length = 0 := by
    intro h
    have hmem := lookupE_isSome_mem e dst hdst
    rw [List.eq_nil_of_length_eq_zero h] at hmem
    simp at hmem
  show goback e src dst = some mv
  simp only [goback]
  rw [if_neg hlen0, hloop]
  show (if st.found = false then none else walk st.frm dst (e.length + 2) src) = some mv
  rw [hfound]
  rw [if_neg (by decide)]
  exact hwk

/-- The explored memory of the C8 witness: two cells side by side with the
shared wall open on both records. -/
def e8w : Explored := [(⟨0, 0⟩, ⟨true, true, true, false⟩), (⟨1, 0⟩, ⟨true, true, false, true⟩)]

theorem C8_witness :
    (⟨1, 0⟩ : Coordinate) ≠ ⟨0, 0⟩ ∧
    (lookupE e8w ⟨0, 0⟩).isSome = true ∧
    ∃ mv : List Dir, goback e8w ⟨1, 0⟩ ⟨0, 0⟩ = some mv ∧ mv ≠ [] ∧
      mv.foldl (fun c d => c.neighbor d) (⟨1, 0⟩ : Coordinate) = ⟨0, 0⟩ ∧
      List.Chain' (fun a b => bfsStep e8w b a) (mv.scanl (fun c d => c.neighbor d) (⟨1, 0⟩ : Coordinate)) :=
  ⟨by decide, by decide, C8_goback_amended e8w ⟨1, 0⟩ ⟨0, 0⟩ (by decide) (by decide)
    (Relation.ReflTransGen.single ⟨.E, by decide, by decide, by decide⟩)⟩
